import Mathlib

set_option maxRecDepth 1000000

/-!
# Verification of the CRC32C engine (src/src/crc32c.cc)

Shallow embedding of the CRC32C (Castagnoli) checksum engine: the GF(2)
matrix algebra building the zero-shift operators, the shift tables, the
table-driven software engine (1-way, short-block 3-lane, long-block 3-lane),
the hardware engine built on the SSE4.2 crc32 instruction, and the public
dispatched entry point.

Buffers are modelled as lists of bytes (naturals, each `< 256`, the byte
range the C `uint8_t*` points at), together with a natural number `a`
recording the machine address of the first byte modulo nothing (only
`a % 8` is ever consulted, mirroring `buf & ALIGN64_MASK`).  64-bit loads
(`*reinterpret_cast<const uint64_t*>(buf)`) are little-endian, as on the
x86 targets this file compiles for.  Machine integers are naturals with
explicit `% 2 ^ 32` / `% 2 ^ 64` where the C code truncates.
-/

namespace Crc32c

/-- `CRC32C_POLYNOMIAL_REV` from crc32c.cc: the reversed Castagnoli polynomial. -/
def CRC32C_POLYNOMIAL_REV : Nat := 0x82F63B78

/-- `LONG_BLOCK` from crc32c.cc. -/
def LONG_BLOCK : Nat := 8192

/-- `SHORT_BLOCK` from crc32c.cc. -/
def SHORT_BLOCK : Nat := 256

/-- `gf2_matrix_times` from crc32c.cc: multiply a matrix (list of rows, least
significant bit first) by a vector over GF(2); while the vector is nonzero,
XOR in the current row when the low bit is set and shift the vector down. -/
def gf2_matrix_times : List Nat → Nat → Nat
  | [], _ => 0
  | m :: ms, vec =>
    if vec = 0 then 0
    else if vec % 2 = 1 then m ^^^ gf2_matrix_times ms (vec / 2)
    else gf2_matrix_times ms (vec / 2)

/-- `gf2_matrix_square` from crc32c.cc: each row of the square is the original
matrix applied to that row. -/
def gf2_matrix_square (mat : List Nat) : List Nat :=
  mat.map (gf2_matrix_times mat)

/-- The initial `odd` matrix of `crc32c_zeros_op`: row 0 is the reversed
polynomial, rows 1..31 are a shifted identity (operator for one zero bit). -/
def zeros_op_odd : List Nat :=
  CRC32C_POLYNOMIAL_REV :: (List.range 31).map (fun n => 2 ^ n)

/-- The do/while loop of `crc32c_zeros_op`: square `odd` into `even`, halve
`len` and return `even` if it hit zero; otherwise square back into `odd`,
halve again, and continue while `len` is positive (the C code copies `odd`
to `even` on that exit path).  `fuel` bounds the number of iterations so the
recursion is structural; `len` at least quarters each iteration, so any
`fuel > len` makes the guard, never the fuel, terminate the loop. -/
def crc32c_zeros_op_loop : Nat → Nat → List Nat → List Nat
  | 0, _, odd => gf2_matrix_square odd
  | fuel + 1, len, odd =>
    let even := gf2_matrix_square odd
    if len / 2 = 0 then even
    else
      let odd2 := gf2_matrix_square even
      if len / 2 / 2 = 0 then odd2
      else crc32c_zeros_op_loop fuel (len / 2 / 2) odd2

/-- `crc32c_zeros_op` from crc32c.cc: starting from the one-zero-bit operator,
square twice (two and four zero bits) and then run the squaring loop on `len`. -/
def crc32c_zeros_op (len : Nat) : List Nat :=
  crc32c_zeros_op_loop (len + 1) len
    (gf2_matrix_square (gf2_matrix_square zeros_op_odd))

/-- The table-building loop of `crc32c_zeros` from crc32c.cc, factored over an
arbitrary operator matrix: `zeros[p][n] = gf2_matrix_times op (n << 8p)`. -/
def mkShiftTable (op : List Nat) : List (List Nat) :=
  [(List.range 256).map (fun n => gf2_matrix_times op n),
   (List.range 256).map (fun n => gf2_matrix_times op (n <<< 8)),
   (List.range 256).map (fun n => gf2_matrix_times op (n <<< 16)),
   (List.range 256).map (fun n => gf2_matrix_times op (n <<< 24))]

/-- `crc32c_zeros` from crc32c.cc: build the four lookup tables for the zeros
operator of a given length. -/
def crc32c_zeros (len : Nat) : List (List Nat) :=
  mkShiftTable (crc32c_zeros_op len)

/-- `crc32c_long` from setup_tables: shift table for `LONG_BLOCK` zeros. -/
def crc32c_long : List (List Nat) := crc32c_zeros LONG_BLOCK

/-- `crc32c_short` from setup_tables: shift table for `SHORT_BLOCK` zeros. -/
def crc32c_short : List (List Nat) := crc32c_zeros SHORT_BLOCK

/-- `crc32c_shift` from crc32c.cc: apply a zeros-operator table to a 32-bit crc
with four byte-indexed lookups. -/
def crc32c_shift (zeros : List (List Nat)) (crc : Nat) : Nat :=
  ((zeros.getD 0 []).getD (crc % 256) 0) ^^^
  ((zeros.getD 1 []).getD (crc / 2 ^ 8 % 256) 0) ^^^
  ((zeros.getD 2 []).getD (crc / 2 ^ 16 % 256) 0) ^^^
  ((zeros.getD 3 []).getD (crc / 2 ^ 24) 0)

/-- One bit of CRC32C polynomial division: the inner loop body of
`setup_tables` (`crc = crc & 1 ? (crc >> 1) ^ CRC32C_POLYNOMIAL_REV : crc >> 1`). -/
def crc_bit_step (crc : Nat) : Nat :=
  if crc % 2 = 1 then (crc / 2) ^^^ CRC32C_POLYNOMIAL_REV else crc / 2

/-- Row 0 of `crc32c_sw_lookup_table`, as built by the first loop of
`setup_tables`: eight bit steps applied to each byte value. -/
def lut_row0 : List Nat :=
  (List.range 256).map (fun ii => crc_bit_step^[8] ii)

/-- The recurrence of the second loop of `setup_tables` producing rows 1..7:
`crc32c_sw_lookup_table[0][crc & 0xff] ^ (crc >> 8)`. -/
def lut_next (crc : Nat) : Nat :=
  lut_row0.getD (crc % 256) 0 ^^^ crc / 2 ^ 8

/-- `crc32c_sw_lookup_table` from setup_tables: 8 rows of 256 entries. -/
def crc32c_sw_lookup_table : List (List Nat) :=
  (List.range 8).map (fun jj =>
    (List.range 256).map (fun ii => lut_next^[jj] (lut_row0.getD ii 0)))

/-- Indexing helper for `crc32c_sw_lookup_table[j][i]`. -/
def lutD (j i : Nat) : Nat :=
  (crc32c_sw_lookup_table.getD j []).getD i 0

/-- `~crc_in` on a `uint32_t`, as computed on entry to every engine. -/
def compl32 (x : Nat) : Nat := (x % 2 ^ 32) ^^^ 0xFFFFFFFF

/-- The byte-at-a-time software step used by every alignment and tail loop:
`crc = crc32c_sw_lookup_table[0][(crc ^ *buf) & 0xff] ^ (crc >> 8)`. -/
def sw_byte_step (crc b : Nat) : Nat :=
  lutD 0 ((crc ^^^ b) % 256) ^^^ crc / 2 ^ 8

/-- Little-endian packing of a byte list: the value of the 64-bit load
`*reinterpret_cast<const uint64_t*>(buf)` when applied to its first 8 bytes. -/
def loadLE : List Nat → Nat
  | [] => 0
  | b :: bs => b + 2 ^ 8 * loadLE bs

/-- `crc32c_sw_inner` from crc32c.cc: fold one 64-bit word into the crc via
eight table lookups. -/
def crc32c_sw_inner (crc word : Nat) : Nat :=
  let c := (crc ^^^ word) % 2 ^ 64
  lutD 7 (c % 256) ^^^ lutD 6 (c / 2 ^ 8 % 256) ^^^ lutD 5 (c / 2 ^ 16 % 256) ^^^
  lutD 4 (c / 2 ^ 24 % 256) ^^^ lutD 3 (c / 2 ^ 32 % 256) ^^^ lutD 2 (c / 2 ^ 40 % 256) ^^^
  lutD 1 (c / 2 ^ 48 % 256) ^^^ lutD 0 (c / 2 ^ 56)

/-- The unaligned-prefix loop of the software engines: consume bytes one at a
time while the buffer address `a` is not 8-byte aligned and bytes remain. -/
def sw_align_loop : Nat → Nat → List Nat → Nat × List Nat
  | _, crc, [] => (crc, [])
  | a, crc, b :: bs =>
    if a % 8 = 0 then (crc, b :: bs)
    else sw_align_loop (a + 1) (sw_byte_step crc b) bs

/-- The 64-bit word loop of the software engines: fold whole words while at
least 8 bytes remain.  `fuel` bounds the iterations to keep the recursion
structural; any `fuel ≥ bs.length` makes the guard terminate the loop. -/
def sw_word_loopF : Nat → Nat → List Nat → Nat × List Nat
  | 0, crc, bs => (crc, bs)
  | fuel + 1, crc, bs =>
    if 8 ≤ bs.length then
      sw_word_loopF fuel (crc32c_sw_inner crc (loadLE (bs.take 8))) (bs.drop 8)
    else (crc, bs)

/-- The 64-bit word loop of the software engines, fuelled by the length. -/
def sw_word_loop (crc : Nat) (bs : List Nat) : Nat × List Nat :=
  sw_word_loopF bs.length crc bs

/-- `crc32c_sw_1way` from crc32c.cc. -/
def crc32c_sw_1way (a : Nat) (buf : List Nat) (crc_in : Nat) : Nat :=
  let s1 := sw_align_loop a (compl32 crc_in) buf
  let s2 := sw_word_loop s1.1 s1.2
  (s2.2.foldl sw_byte_step s2.1 ^^^ 0xFFFFFFFF) % 2 ^ 32

/-- The interleaved 3-lane do/while over one `3*W` block: `k` counts the
remaining 8-byte groups; lanes 1 and 2 read at offsets `W` and `2*W` from the
advancing buffer pointer. -/
def sw_block3_loop (W : Nat) : Nat → Nat × Nat × Nat → List Nat → Nat × Nat × Nat
  | 0, cs, _ => cs
  | k + 1, cs, bs =>
    sw_block3_loop W k
      (crc32c_sw_inner cs.1 (loadLE (bs.take 8)),
       crc32c_sw_inner cs.2.1 (loadLE ((bs.drop W).take 8)),
       crc32c_sw_inner cs.2.2 (loadLE ((bs.drop (2 * W)).take 8)))
      (bs.drop 8)

/-- The `SHORT_BLOCK` 3-lane loop of `crc32c_sw_short_block` (and of the tail
of `crc32c_sw`): while `3*SHORT_BLOCK` bytes remain, run the three lanes from
`(crc, 0, 0)` and combine them through the short shift table. -/
def sw_short_loopF : Nat → Nat → List Nat → Nat × List Nat
  | 0, crc, bs => (crc, bs)
  | fuel + 1, crc, bs =>
    if 3 * SHORT_BLOCK ≤ bs.length then
      let cs := sw_block3_loop SHORT_BLOCK (SHORT_BLOCK / 8) (crc, 0, 0) bs
      let c1 := crc32c_shift crc32c_short (cs.1 % 2 ^ 32) ^^^ cs.2.1
      let c2 := crc32c_shift crc32c_short (c1 % 2 ^ 32) ^^^ cs.2.2
      sw_short_loopF fuel c2 (bs.drop (3 * SHORT_BLOCK))
    else (crc, bs)

/-- The `SHORT_BLOCK` 3-lane loop, fuelled by the length. -/
def sw_short_loop (crc : Nat) (bs : List Nat) : Nat × List Nat :=
  sw_short_loopF bs.length crc bs

/-- The `LONG_BLOCK` 3-lane loop of `crc32c_sw`. -/
def sw_long_loopF : Nat → Nat → List Nat → Nat × List Nat
  | 0, crc, bs => (crc, bs)
  | fuel + 1, crc, bs =>
    if 3 * LONG_BLOCK ≤ bs.length then
      let cs := sw_block3_loop LONG_BLOCK (LONG_BLOCK / 8) (crc, 0, 0) bs
      let c1 := crc32c_shift crc32c_long (cs.1 % 2 ^ 32) ^^^ cs.2.1
      let c2 := crc32c_shift crc32c_long (c1 % 2 ^ 32) ^^^ cs.2.2
      sw_long_loopF fuel c2 (bs.drop (3 * LONG_BLOCK))
    else (crc, bs)

/-- The `LONG_BLOCK` 3-lane loop, fuelled by the length. -/
def sw_long_loop (crc : Nat) (bs : List Nat) : Nat × List Nat :=
  sw_long_loopF bs.length crc bs

/-- `crc32c_sw_short_block` from crc32c.cc. -/
def crc32c_sw_short_block (a : Nat) (buf : List Nat) (crc_in : Nat) : Nat :=
  if buf.length < 3 * SHORT_BLOCK then crc32c_sw_1way a buf crc_in
  else
    let s1 := sw_align_loop a (compl32 crc_in) buf
    let s2 := sw_short_loop s1.1 s1.2
    let s3 := sw_word_loop s2.1 s2.2
    (s3.2.foldl sw_byte_step s3.1 ^^^ 0xFFFFFFFF) % 2 ^ 32

/-- `crc32c_sw` (the `CRC32C_SW` function) from crc32c.cc. -/
def crc32c_sw (a : Nat) (buf : List Nat) (crc_in : Nat) : Nat :=
  if buf.length < 3 * LONG_BLOCK then crc32c_sw_short_block a buf crc_in
  else
    let s1 := sw_align_loop a (compl32 crc_in) buf
    let s2 := sw_long_loop s1.1 s1.2
    let s3 := sw_short_loop s2.1 s2.2
    let s4 := sw_word_loop s3.1 s3.2
    (s4.2.foldl sw_byte_step s4.1 ^^^ 0xFFFFFFFF) % 2 ^ 32

/-- Modelled from the spec: the hardware per-byte fold (`_mm_crc32_u8`, absent
from src/ because it is a CPU instruction).  It performs the CRC32C
polynomial-division update of the low 32 bits of the accumulator by one byte:
XOR the byte in and run eight bit steps of the reversed Castagnoli polynomial. -/
def mm_crc32_u8 (crc b : Nat) : Nat :=
  crc_bit_step^[8] ((crc % 2 ^ 32) ^^^ (b % 2 ^ 8))

/-- Modelled from the spec: the hardware per-word fold (`_mm_crc32_u64`, absent
from src/ because it is a CPU instruction).  It uses only the low 32 bits of
the accumulator, XORs in the 64-bit operand and runs 64 bit steps of the
reversed Castagnoli polynomial; the result fits in 32 bits. -/
def mm_crc32_u64 (crc w : Nat) : Nat :=
  crc_bit_step^[64] ((crc % 2 ^ 32) ^^^ (w % 2 ^ 64))

/-- The hardware byte step `_mm_crc32_u8(static_cast<uint32_t>(crc), *buf)`. -/
def hw_byte_step (crc b : Nat) : Nat := mm_crc32_u8 (crc % 2 ^ 32) b

/-- The unaligned-prefix loop of the hardware engines. -/
def hw_align_loop : Nat → Nat → List Nat → Nat × List Nat
  | _, crc, [] => (crc, [])
  | a, crc, b :: bs =>
    if a % 8 = 0 then (crc, b :: bs)
    else hw_align_loop (a + 1) (hw_byte_step crc b) bs

/-- The 64-bit word loop of the hardware engines. -/
def hw_word_loopF : Nat → Nat → List Nat → Nat × List Nat
  | 0, crc, bs => (crc, bs)
  | fuel + 1, crc, bs =>
    if 8 ≤ bs.length then
      hw_word_loopF fuel (mm_crc32_u64 crc (loadLE (bs.take 8))) (bs.drop 8)
    else (crc, bs)

/-- The 64-bit word loop of the hardware engines, fuelled by the length. -/
def hw_word_loop (crc : Nat) (bs : List Nat) : Nat × List Nat :=
  hw_word_loopF bs.length crc bs

/-- `crc32c_hw_1way` from crc32c.cc. -/
def crc32c_hw_1way (a : Nat) (buf : List Nat) (crc_in : Nat) : Nat :=
  let s1 := hw_align_loop a (compl32 crc_in) buf
  let s2 := hw_word_loop s1.1 s1.2
  (s2.2.foldl hw_byte_step s2.1 ^^^ 0xFFFFFFFF) % 2 ^ 32

/-- The interleaved 3-lane do/while of the hardware engines over one `3*W`
block. -/
def hw_block3_loop (W : Nat) : Nat → Nat × Nat × Nat → List Nat → Nat × Nat × Nat
  | 0, cs, _ => cs
  | k + 1, cs, bs =>
    hw_block3_loop W k
      (mm_crc32_u64 cs.1 (loadLE (bs.take 8)),
       mm_crc32_u64 cs.2.1 (loadLE ((bs.drop W).take 8)),
       mm_crc32_u64 cs.2.2 (loadLE ((bs.drop (2 * W)).take 8)))
      (bs.drop 8)

/-- The `SHORT_BLOCK` 3-lane loop of `crc32c_hw_short_block` (and of the tail
of `crc32c_hw`). -/
def hw_short_loopF : Nat → Nat → List Nat → Nat × List Nat
  | 0, crc, bs => (crc, bs)
  | fuel + 1, crc, bs =>
    if 3 * SHORT_BLOCK ≤ bs.length then
      let cs := hw_block3_loop SHORT_BLOCK (SHORT_BLOCK / 8) (crc, 0, 0) bs
      let c1 := crc32c_shift crc32c_short (cs.1 % 2 ^ 32) ^^^ cs.2.1
      let c2 := crc32c_shift crc32c_short (c1 % 2 ^ 32) ^^^ cs.2.2
      hw_short_loopF fuel c2 (bs.drop (3 * SHORT_BLOCK))
    else (crc, bs)

/-- The `SHORT_BLOCK` 3-lane hardware loop, fuelled by the length. -/
def hw_short_loop (crc : Nat) (bs : List Nat) : Nat × List Nat :=
  hw_short_loopF bs.length crc bs

/-- The `LONG_BLOCK` 3-lane loop of `crc32c_hw` (the `CRC32C_HW` function). -/
def hw_long_loopF : Nat → Nat → List Nat → Nat × List Nat
  | 0, crc, bs => (crc, bs)
  | fuel + 1, crc, bs =>
    if 3 * LONG_BLOCK ≤ bs.length then
      let cs := hw_block3_loop LONG_BLOCK (LONG_BLOCK / 8) (crc, 0, 0) bs
      let c1 := crc32c_shift crc32c_long (cs.1 % 2 ^ 32) ^^^ cs.2.1
      let c2 := crc32c_shift crc32c_long (c1 % 2 ^ 32) ^^^ cs.2.2
      hw_long_loopF fuel c2 (bs.drop (3 * LONG_BLOCK))
    else (crc, bs)

/-- The `LONG_BLOCK` 3-lane hardware loop, fuelled by the length. -/
def hw_long_loop (crc : Nat) (bs : List Nat) : Nat × List Nat :=
  hw_long_loopF bs.length crc bs

/-- `crc32c_hw_short_block` from crc32c.cc. -/
def crc32c_hw_short_block (a : Nat) (buf : List Nat) (crc_in : Nat) : Nat :=
  if buf.length < 3 * SHORT_BLOCK then crc32c_hw_1way a buf crc_in
  else
    let s1 := hw_align_loop a (compl32 crc_in) buf
    let s2 := hw_short_loop s1.1 s1.2
    let s3 := hw_word_loop s2.1 s2.2
    (s3.2.foldl hw_byte_step s3.1 ^^^ 0xFFFFFFFF) % 2 ^ 32

/-- `crc32c_hw` (the `CRC32C_HW` function) from crc32c.cc. -/
def crc32c_hw (a : Nat) (buf : List Nat) (crc_in : Nat) : Nat :=
  if buf.length < 3 * LONG_BLOCK then crc32c_hw_short_block a buf crc_in
  else
    let s1 := hw_align_loop a (compl32 crc_in) buf
    let s2 := hw_long_loop s1.1 s1.2
    let s3 := hw_short_loop s2.1 s2.2
    let s4 := hw_word_loop s3.1 s3.2
    (s4.2.foldl hw_byte_step s4.1 ^^^ 0xFFFFFFFF) % 2 ^ 32

/-- The public `crc32c` entry point: `setup_crc32c` probes the CPU once for
SSE4.2 and binds the hardware engine when available, else the software engine. -/
def crc32c (sse42 : Bool) (a : Nat) (buf : List Nat) (crc_in : Nat) : Nat :=
  if sse42 then crc32c_hw a buf crc_in else crc32c_sw a buf crc_in

/-- Reference byte-at-a-time fold of the running (complemented) CRC state. -/
def crcFold (crc : Nat) (bs : List Nat) : Nat := bs.foldl sw_byte_step crc

/-- Reference single-lane CRC32C: complement in, fold every byte through the
table, complement out. -/
def crcSpec (buf : List Nat) (crc_in : Nat) : Nat :=
  (crcFold (compl32 crc_in) buf ^^^ 0xFFFFFFFF) % 2 ^ 32

/-- The effect of appending `n` zero bytes to a CRC register state: fold `n`
zero bytes with the byte-at-a-time step. -/
def appendZeros (n x : Nat) : Nat := crcFold x (List.replicate n 0)

/-- A matrix `M` represents `n` applications of the polynomial bit step: its
rows are 32-bit values and multiplying it by any 32-bit vector runs `n` bit
steps on that vector. -/
def OpRepr (M : List Nat) (n : Nat) : Prop :=
  (∀ r ∈ M, r < 2 ^ 32) ∧
  ∀ x : Nat, x < 2 ^ 32 → gf2_matrix_times M x = crc_bit_step^[n] x

/-! ## Bitwise toolbox -/

theorem xor_left_comm (a b c : Nat) : a ^^^ (b ^^^ c) = b ^^^ (a ^^^ c) := by
  rw [← Nat.xor_assoc, Nat.xor_comm a b, Nat.xor_assoc]

theorem xor_mul_pow_add (i a : Nat) {b : Nat} (hb : b < 2 ^ i) :
    2 ^ i * a ^^^ b = 2 ^ i * a + b := by
  rw [Nat.mul_add_lt_is_or hb a]
  apply Nat.eq_of_testBit_eq
  intro j
  rcases Nat.lt_or_ge j i with h | h
  · have h1 : Nat.testBit (2 ^ i * a) j = false := by
      rw [Nat.testBit_mul_pow_two]
      simp [Nat.not_le_of_lt h]
    simp [Nat.testBit_xor, Nat.testBit_or, h1]
  · have h2 : Nat.testBit b j = false :=
      Nat.testBit_lt_two_pow (lt_of_lt_of_le hb (Nat.pow_le_pow_right (by norm_num) h))
    simp [Nat.testBit_xor, Nat.testBit_or, h2]

theorem xor_low_add_high (i a : Nat) {b : Nat} (hb : b < 2 ^ i) :
    b ^^^ 2 ^ i * a = b + 2 ^ i * a := by
  rw [Nat.xor_comm, xor_mul_pow_add i a hb, Nat.add_comm]

theorem xor_div_pow (a b k : Nat) : (a ^^^ b) / 2 ^ k = a / 2 ^ k ^^^ b / 2 ^ k := by
  induction k with
  | zero => simp
  | succ k ih =>
    have h : ∀ x : Nat, x / 2 ^ (k + 1) = x / 2 ^ k / 2 := by
      intro x
      rw [Nat.div_div_eq_div_mul, pow_succ]
    rw [h, h, h, ih, Nat.xor_div_two]

theorem xor_mod_pow (a b k : Nat) : (a ^^^ b) % 2 ^ k = a % 2 ^ k ^^^ b % 2 ^ k := by
  apply Nat.eq_of_testBit_eq
  intro j
  simp only [Nat.testBit_mod_two_pow, Nat.testBit_xor]
  by_cases h : j < k <;> simp [h]

theorem two_mul_xor (a b : Nat) : 2 * (a ^^^ b) = 2 * a ^^^ 2 * b := by
  apply Nat.eq_of_testBit_eq
  intro j
  cases j with
  | zero =>
    have hz : ∀ x : Nat, Nat.testBit (2 * x) 0 = false := by
      intro x
      simp [Nat.testBit_zero, Nat.mul_mod_right]
    simp [hz, Nat.testBit_xor]
  | succ j =>
    have h2 : ∀ x : Nat, 2 * x / 2 = x := by
      intro x
      omega
    simp only [Nat.testBit_add_one, Nat.xor_div_two, h2, Nat.testBit_xor]

/-- Recompose a number from its low byte and the rest. -/
theorem byte_split (y : Nat) : y % 256 ^^^ 2 ^ 8 * (y / 2 ^ 8) = y := by
  have h : y % 256 < 2 ^ 8 := Nat.mod_lt _ (by norm_num)
  rw [xor_low_add_high 8 _ h]
  have h2 : (256 : Nat) = 2 ^ 8 := by norm_num
  rw [h2]
  omega

/-! ## Lemmas about the polynomial bit step -/

theorem crc_bit_step_eq (x : Nat) :
    crc_bit_step x = x / 2 ^^^ (if x % 2 = 1 then CRC32C_POLYNOMIAL_REV else 0) := by
  unfold crc_bit_step
  by_cases h : x % 2 = 1 <;> simp [h]

theorem crc_bit_step_xor (a b : Nat) :
    crc_bit_step (a ^^^ b) = crc_bit_step a ^^^ crc_bit_step b := by
  rw [crc_bit_step_eq, crc_bit_step_eq, crc_bit_step_eq, Nat.xor_div_two]
  have h : (if (a ^^^ b) % 2 = 1 then CRC32C_POLYNOMIAL_REV else 0) =
      (if a % 2 = 1 then CRC32C_POLYNOMIAL_REV else 0) ^^^
      (if b % 2 = 1 then CRC32C_POLYNOMIAL_REV else 0) := by
    rcases Nat.mod_two_eq_zero_or_one a with ha | ha <;>
      rcases Nat.mod_two_eq_zero_or_one b with hb | hb
    · have hab : (a ^^^ b) % 2 = 0 := by rw [Nat.xor_mod_two_eq]; omega
      simp [ha, hb, hab]
    · have hab : (a ^^^ b) % 2 = 1 := by rw [Nat.xor_mod_two_eq]; omega
      simp [ha, hb, hab]
    · have hab : (a ^^^ b) % 2 = 1 := by rw [Nat.xor_mod_two_eq]; omega
      simp [ha, hb, hab]
    · have hab : (a ^^^ b) % 2 = 0 := by rw [Nat.xor_mod_two_eq]; omega
      simp [ha, hb, hab]
  rw [h]
  simp only [Nat.xor_assoc, Nat.xor_comm, xor_left_comm]

theorem crc_bit_step_two_mul (y : Nat) : crc_bit_step (2 * y) = y := by
  unfold crc_bit_step
  simp [Nat.mul_mod_right, Nat.mul_div_cancel_left]

theorem crc_bit_step_iter_xor (n a b : Nat) :
    crc_bit_step^[n] (a ^^^ b) = crc_bit_step^[n] a ^^^ crc_bit_step^[n] b := by
  induction n generalizing a b with
  | zero => simp
  | succ k ih => simp [Function.iterate_succ_apply, crc_bit_step_xor, ih]

theorem crc_bit_step_iter_two_pow_mul (n y : Nat) :
    crc_bit_step^[n] (2 ^ n * y) = y := by
  induction n generalizing y with
  | zero => simp
  | succ k ih =>
    rw [Function.iterate_succ_apply]
    have h : 2 ^ (k + 1) * y = 2 * (2 ^ k * y) := by ring
    rw [h, crc_bit_step_two_mul, ih]

theorem crc_bit_step_iter_xor_high (n x y : Nat) :
    crc_bit_step^[n] (x ^^^ 2 ^ n * y) = crc_bit_step^[n] x ^^^ y := by
  rw [crc_bit_step_iter_xor, crc_bit_step_iter_two_pow_mul]

theorem crc_bit_step_shrink {n : Nat} (hn : 32 ≤ n) {x : Nat} (h : x < 2 ^ (n + 1)) :
    crc_bit_step x < 2 ^ n := by
  rw [crc_bit_step_eq]
  apply Nat.xor_lt_two_pow
  · have h2 : x < 2 ^ n * 2 := by
      rw [← pow_succ]
      exact h
    omega
  · by_cases hx : x % 2 = 1
    · rw [if_pos hx]
      calc CRC32C_POLYNOMIAL_REV < 2 ^ 32 := by norm_num [CRC32C_POLYNOMIAL_REV]
        _ ≤ 2 ^ n := Nat.pow_le_pow_right (by norm_num) hn
    · rw [if_neg hx]
      exact Nat.two_pow_pos n

theorem crc_bit_step_lt {n : Nat} (hn : 32 ≤ n) {x : Nat} (h : x < 2 ^ n) :
    crc_bit_step x < 2 ^ n :=
  crc_bit_step_shrink hn (lt_trans h (Nat.pow_lt_pow_right (by norm_num) (by omega)))

theorem crc_bit_step_iter_lt32 {x : Nat} (h : x < 2 ^ 32) (n : Nat) :
    crc_bit_step^[n] x < 2 ^ 32 := by
  induction n generalizing x with
  | zero => simpa
  | succ k ih =>
    rw [Function.iterate_succ_apply]
    exact ih (crc_bit_step_lt (le_refl 32) h)

theorem crc_bit_step_iter_squeeze (k : Nat) :
    ∀ {x : Nat}, x < 2 ^ (32 + k) → crc_bit_step^[k] x < 2 ^ 32 := by
  induction k with
  | zero => intro x h; simpa using h
  | succ k ih =>
    intro x h
    rw [Function.iterate_succ_apply]
    exact ih (crc_bit_step_shrink (by omega) (by rw [show 32 + k + 1 = 32 + (k + 1) by ring]; exact h))

/-! ## Lookup-table lemmas -/

theorem getD_range_map {α : Type} (f : Nat → α) (d : α) (n : Nat) {i : Nat} (h : i < n) :
    ((List.range n).map f).getD i d = f i := by
  rw [List.getD_eq_getElem?_getD, List.getElem?_map, List.getElem?_range h]
  rfl

theorem getD_range_map_oob {α : Type} (f : Nat → α) (d : α) (n : Nat) {i : Nat} (h : n ≤ i) :
    ((List.range n).map f).getD i d = d := by
  rw [List.getD_eq_getElem?_getD, List.getElem?_eq_none (by simpa using h)]
  rfl

theorem lut_row0_getD {i : Nat} (h : i < 256) :
    lut_row0.getD i 0 = crc_bit_step^[8] i := by
  unfold lut_row0
  exact getD_range_map _ _ 256 h

theorem step8_decomp (y : Nat) :
    crc_bit_step^[8] y = crc_bit_step^[8] (y % 256) ^^^ y / 2 ^ 8 := by
  conv_lhs => rw [← byte_split y]
  rw [crc_bit_step_iter_xor_high]

theorem lut_next_eq (y : Nat) : lut_next y = crc_bit_step^[8] y := by
  rw [step8_decomp, ← lut_row0_getD (Nat.mod_lt _ (by norm_num))]
  rfl

theorem lutD_eq {j i : Nat} (hj : j < 8) (hi : i < 256) :
    lutD j i = crc_bit_step^[8 * (j + 1)] i := by
  unfold lutD crc32c_sw_lookup_table
  rw [getD_range_map _ _ 8 hj, getD_range_map _ _ 256 hi, lut_row0_getD hi]
  have hfun : lut_next = crc_bit_step^[8] := funext lut_next_eq
  rw [hfun, ← Function.iterate_mul, ← Function.iterate_add_apply,
    show 8 * j + 8 = 8 * (j + 1) from by ring]

theorem lutD_lt (j i : Nat) : lutD j i < 2 ^ 32 := by
  rcases Nat.lt_or_ge j 8 with hj | hj
  · rcases Nat.lt_or_ge i 256 with hi | hi
    · rw [lutD_eq hj hi]
      exact crc_bit_step_iter_lt32 (lt_trans hi (by norm_num)) _
    · unfold lutD crc32c_sw_lookup_table
      rw [getD_range_map _ _ 8 hj, getD_range_map_oob _ _ 256 hi]
      exact Nat.two_pow_pos 32
  · unfold lutD crc32c_sw_lookup_table
    rw [getD_range_map_oob _ _ 8 hj]
    simp only [List.getD]
    exact Nat.two_pow_pos 32

theorem lutD_zero_eq {i : Nat} (hi : i < 256) : lutD 0 i = crc_bit_step^[8] i := by
  have h := lutD_eq (show (0 : Nat) < 8 by norm_num) hi
  rw [show 8 * (0 + 1) = 8 from by norm_num] at h
  exact h

/-! ## Byte-step lemmas -/

theorem sw_byte_step_eq {b : Nat} (hb : b < 256) (c : Nat) :
    sw_byte_step c b = crc_bit_step^[8] (c ^^^ b) := by
  have hb8 : b < 2 ^ 8 := lt_of_lt_of_eq hb (by norm_num)
  unfold sw_byte_step
  rw [lutD_zero_eq (Nat.mod_lt _ (by norm_num)), step8_decomp (c ^^^ b),
    xor_div_pow, Nat.div_eq_of_lt hb8, Nat.xor_zero]

theorem sw_byte_step_zero (c : Nat) : sw_byte_step c 0 = crc_bit_step^[8] c := by
  rw [sw_byte_step_eq (by norm_num) c, Nat.xor_zero]

theorem sw_byte_step_xor (x y b : Nat) :
    sw_byte_step (x ^^^ y) b = sw_byte_step x b ^^^ crc_bit_step^[8] y := by
  unfold sw_byte_step
  rw [lutD_zero_eq (Nat.mod_lt _ (by norm_num)), lutD_zero_eq (Nat.mod_lt _ (by norm_num))]
  have h256 : (256 : Nat) = 2 ^ 8 := by norm_num
  rw [show x ^^^ y ^^^ b = x ^^^ b ^^^ y from by
      rw [Nat.xor_assoc, Nat.xor_comm y b, ← Nat.xor_assoc]]
  rw [h256, xor_mod_pow, xor_div_pow, crc_bit_step_iter_xor, step8_decomp y, h256]
  simp only [Nat.xor_assoc, Nat.xor_comm, xor_left_comm]

theorem sw_byte_step_lt {c : Nat} (hc : c < 2 ^ 32) (b : Nat) : sw_byte_step c b < 2 ^ 32 := by
  unfold sw_byte_step
  exact Nat.xor_lt_two_pow (lutD_lt _ _) (by omega)

/-! ## Fold lemmas -/

theorem crcFold_nil (c : Nat) : crcFold c [] = c := rfl

theorem crcFold_cons (c b : Nat) (bs : List Nat) :
    crcFold c (b :: bs) = crcFold (sw_byte_step c b) bs := rfl

theorem crcFold_append (c : Nat) (xs ys : List Nat) :
    crcFold c (xs ++ ys) = crcFold (crcFold c xs) ys := by
  simp [crcFold]

theorem crcFold_lt {c : Nat} (hc : c < 2 ^ 32) (bs : List Nat) : crcFold c bs < 2 ^ 32 := by
  induction bs generalizing c with
  | nil => simpa [crcFold]
  | cons b bs ih =>
    rw [crcFold_cons]
    exact ih (sw_byte_step_lt hc b)

theorem crcFold_xor (bs : List Nat) : ∀ x y : Nat,
    crcFold (x ^^^ y) bs = crcFold x bs ^^^ crc_bit_step^[8 * bs.length] y := by
  induction bs with
  | nil =>
    intro x y
    simp [crcFold]
  | cons b bs ih =>
    intro x y
    rw [crcFold_cons, crcFold_cons, sw_byte_step_xor, ih, ← Function.iterate_add_apply,
      show 8 * bs.length + 8 = 8 * (b :: bs).length from by simp only [List.length_cons]; ring]

theorem compl32_lt (x : Nat) : compl32 x < 2 ^ 32 := by
  unfold compl32
  exact Nat.xor_lt_two_pow (Nat.mod_lt _ (by norm_num)) (by norm_num)

/-! ## 64-bit load and the word fold -/

theorem loadLE_lt (bs : List Nat) (h : ∀ b ∈ bs, b < 256) :
    loadLE bs < 2 ^ (8 * bs.length) := by
  induction bs with
  | nil => simp [loadLE]
  | cons b bs ih =>
    have hb : b < 256 := h b (by simp)
    have hl : loadLE bs < 2 ^ (8 * bs.length) := ih (fun x hx => h x (by simp [hx]))
    simp only [loadLE, List.length_cons]
    rw [show 8 * (bs.length + 1) = 8 * bs.length + 8 from by ring, pow_add,
      show (2 : Nat) ^ 8 = 256 from by norm_num]
    omega

theorem step_iter_peel (j y : Nat) :
    crc_bit_step^[8 * j + 8] y =
      crc_bit_step^[8 * j + 8] (y % 256) ^^^ crc_bit_step^[8 * j] (y / 2 ^ 8) := by
  conv_lhs => rw [← byte_split y]
  rw [crc_bit_step_iter_xor]
  congr 1
  rw [Function.iterate_add_apply, crc_bit_step_iter_two_pow_mul]

theorem crc32c_sw_inner_eq {crc word : Nat} (h1 : crc < 2 ^ 32) (h2 : word < 2 ^ 64) :
    crc32c_sw_inner crc word = crc_bit_step^[64] (crc ^^^ word) := by
  have hc : crc ^^^ word < 2 ^ 64 :=
    Nat.xor_lt_two_pow (lt_trans h1 (by norm_num)) h2
  simp only [crc32c_sw_inner, Nat.mod_eq_of_lt hc]
  set c := crc ^^^ word with hcdef
  have hm : ∀ x : Nat, x % 256 < 256 := fun x => Nat.mod_lt _ (by norm_num)
  have hdiv : c / 2 ^ 56 < 256 := by
    apply Nat.div_lt_of_lt_mul
    calc c < 2 ^ 64 := hc
      _ = 2 ^ 56 * 256 := by norm_num
  have e7 : lutD 7 (c % 256) = crc_bit_step^[64] (c % 256) := by
    have h := lutD_eq (show (7 : Nat) < 8 by norm_num) (hm c)
    rw [show 8 * (7 + 1) = 64 from by norm_num] at h
    exact h
  have e6 : lutD 6 (c / 2 ^ 8 % 256) = crc_bit_step^[56] (c / 2 ^ 8 % 256) := by
    have h := lutD_eq (show (6 : Nat) < 8 by norm_num) (hm (c / 2 ^ 8))
    rw [show 8 * (6 + 1) = 56 from by norm_num] at h
    exact h
  have e5 : lutD 5 (c / 2 ^ 16 % 256) = crc_bit_step^[48] (c / 2 ^ 16 % 256) := by
    have h := lutD_eq (show (5 : Nat) < 8 by norm_num) (hm (c / 2 ^ 16))
    rw [show 8 * (5 + 1) = 48 from by norm_num] at h
    exact h
  have e4 : lutD 4 (c / 2 ^ 24 % 256) = crc_bit_step^[40] (c / 2 ^ 24 % 256) := by
    have h := lutD_eq (show (4 : Nat) < 8 by norm_num) (hm (c / 2 ^ 24))
    rw [show 8 * (4 + 1) = 40 from by norm_num] at h
    exact h
  have e3 : lutD 3 (c / 2 ^ 32 % 256) = crc_bit_step^[32] (c / 2 ^ 32 % 256) := by
    have h := lutD_eq (show (3 : Nat) < 8 by norm_num) (hm (c / 2 ^ 32))
    rw [show 8 * (3 + 1) = 32 from by norm_num] at h
    exact h
  have e2 : lutD 2 (c / 2 ^ 40 % 256) = crc_bit_step^[24] (c / 2 ^ 40 % 256) := by
    have h := lutD_eq (show (2 : Nat) < 8 by norm_num) (hm (c / 2 ^ 40))
    rw [show 8 * (2 + 1) = 24 from by norm_num] at h
    exact h
  have e1 : lutD 1 (c / 2 ^ 48 % 256) = crc_bit_step^[16] (c / 2 ^ 48 % 256) := by
    have h := lutD_eq (show (1 : Nat) < 8 by norm_num) (hm (c / 2 ^ 48))
    rw [show 8 * (1 + 1) = 16 from by norm_num] at h
    exact h
  have e0 : lutD 0 (c / 2 ^ 56) = crc_bit_step^[8] (c / 2 ^ 56) := by
    have h := lutD_eq (show (0 : Nat) < 8 by norm_num) hdiv
    rw [show 8 * (0 + 1) = 8 from by norm_num] at h
    exact h
  rw [e7, e6, e5, e4, e3, e2, e1, e0]
  have q7 : crc_bit_step^[64] c
      = crc_bit_step^[64] (c % 256) ^^^ crc_bit_step^[56] (c / 2 ^ 8) := by
    have h := step_iter_peel 7 c
    rw [show 8 * 7 + 8 = 64 from by norm_num, show 8 * 7 = 56 from by norm_num] at h
    exact h
  have q6 : crc_bit_step^[56] (c / 2 ^ 8)
      = crc_bit_step^[56] (c / 2 ^ 8 % 256) ^^^ crc_bit_step^[48] (c / 2 ^ 16) := by
    have h := step_iter_peel 6 (c / 2 ^ 8)
    rw [show 8 * 6 + 8 = 56 from by norm_num, show 8 * 6 = 48 from by norm_num,
      show c / 2 ^ 8 / 2 ^ 8 = c / 2 ^ 16 from by rw [Nat.div_div_eq_div_mul]; norm_num] at h
    exact h
  have q5 : crc_bit_step^[48] (c / 2 ^ 16)
      = crc_bit_step^[48] (c / 2 ^ 16 % 256) ^^^ crc_bit_step^[40] (c / 2 ^ 24) := by
    have h := step_iter_peel 5 (c / 2 ^ 16)
    rw [show 8 * 5 + 8 = 48 from by norm_num, show 8 * 5 = 40 from by norm_num,
      show c / 2 ^ 16 / 2 ^ 8 = c / 2 ^ 24 from by rw [Nat.div_div_eq_div_mul]; norm_num] at h
    exact h
  have q4 : crc_bit_step^[40] (c / 2 ^ 24)
      = crc_bit_step^[40] (c / 2 ^ 24 % 256) ^^^ crc_bit_step^[32] (c / 2 ^ 32) := by
    have h := step_iter_peel 4 (c / 2 ^ 24)
    rw [show 8 * 4 + 8 = 40 from by norm_num, show 8 * 4 = 32 from by norm_num,
      show c / 2 ^ 24 / 2 ^ 8 = c / 2 ^ 32 from by rw [Nat.div_div_eq_div_mul]; norm_num] at h
    exact h
  have q3 : crc_bit_step^[32] (c / 2 ^ 32)
      = crc_bit_step^[32] (c / 2 ^ 32 % 256) ^^^ crc_bit_step^[24] (c / 2 ^ 40) := by
    have h := step_iter_peel 3 (c / 2 ^ 32)
    rw [show 8 * 3 + 8 = 32 from by norm_num, show 8 * 3 = 24 from by norm_num,
      show c / 2 ^ 32 / 2 ^ 8 = c / 2 ^ 40 from by rw [Nat.div_div_eq_div_mul]; norm_num] at h
    exact h
  have q2 : crc_bit_step^[24] (c / 2 ^ 40)
      = crc_bit_step^[24] (c / 2 ^ 40 % 256) ^^^ crc_bit_step^[16] (c / 2 ^ 48) := by
    have h := step_iter_peel 2 (c / 2 ^ 40)
    rw [show 8 * 2 + 8 = 24 from by norm_num, show 8 * 2 = 16 from by norm_num,
      show c / 2 ^ 40 / 2 ^ 8 = c / 2 ^ 48 from by rw [Nat.div_div_eq_div_mul]; norm_num] at h
    exact h
  have q1 : crc_bit_step^[16] (c / 2 ^ 48)
      = crc_bit_step^[16] (c / 2 ^ 48 % 256) ^^^ crc_bit_step^[8] (c / 2 ^ 56) := by
    have h := step_iter_peel 1 (c / 2 ^ 48)
    rw [show 8 * 1 + 8 = 16 from by norm_num, show 8 * 1 = 8 from by norm_num,
      show c / 2 ^ 48 / 2 ^ 8 = c / 2 ^ 56 from by rw [Nat.div_div_eq_div_mul]; norm_num] at h
    exact h
  rw [q7, q6, q5, q4, q3, q2, q1]
  simp only [Nat.xor_assoc]

theorem crc32c_sw_inner_lt (crc word : Nat) : crc32c_sw_inner crc word < 2 ^ 32 := by
  simp only [crc32c_sw_inner]
  repeat first
  | exact lutD_lt _ _
  | apply Nat.xor_lt_two_pow

theorem crcFold_load (bs : List Nat) : ∀ crc : Nat, (∀ b ∈ bs, b < 256) →
    crcFold crc bs = crc_bit_step^[8 * bs.length] (crc ^^^ loadLE bs) := by
  induction bs with
  | nil =>
    intro crc _
    simp [crcFold, loadLE]
  | cons b bs ih =>
    intro crc h
    have hb : b < 256 := h b (by simp)
    have hb8 : b < 2 ^ 8 := lt_of_lt_of_eq hb (by norm_num)
    rw [crcFold_cons, ih _ (fun x hx => h x (by simp [hx])), sw_byte_step_eq hb]
    rw [show crc_bit_step^[8] (crc ^^^ b) ^^^ loadLE bs
        = crc_bit_step^[8] ((crc ^^^ b) ^^^ 2 ^ 8 * loadLE bs) from
      (crc_bit_step_iter_xor_high 8 _ _).symm]
    rw [← Function.iterate_add_apply,
      show 8 * bs.length + 8 = 8 * (b :: bs).length from by simp only [List.length_cons]; ring]
    congr 1
    rw [Nat.xor_assoc]
    congr 1
    rw [xor_low_add_high 8 _ hb8]
    rfl

theorem crc32c_sw_inner_fold {bs : List Nat} (hlen : bs.length = 8)
    (hb : ∀ b ∈ bs, b < 256) {crc : Nat} (hc : crc < 2 ^ 32) :
    crc32c_sw_inner crc (loadLE bs) = crcFold crc bs := by
  have hw : loadLE bs < 2 ^ 64 := by
    have h := loadLE_lt bs hb
    rw [hlen, show 8 * 8 = 64 from by norm_num] at h
    exact h
  rw [crc32c_sw_inner_eq hc hw, crcFold_load bs crc hb, hlen,
    show 8 * 8 = 64 from by norm_num]

/-! ## GF(2) matrix lemmas -/

theorem gf2_times_zero (mat : List Nat) : gf2_matrix_times mat 0 = 0 := by
  cases mat <;> simp [gf2_matrix_times]

theorem gf2_times_cons (m : Nat) (ms : List Nat) (v : Nat) :
    gf2_matrix_times (m :: ms) v =
      (if v % 2 = 1 then m else 0) ^^^ gf2_matrix_times ms (v / 2) := by
  by_cases h : v = 0
  · subst h
    simp [gf2_matrix_times, gf2_times_zero]
  · by_cases h2 : v % 2 = 1 <;> simp [gf2_matrix_times, h, h2]

theorem gf2_times_xor (mat : List Nat) : ∀ a b : Nat,
    gf2_matrix_times mat (a ^^^ b) = gf2_matrix_times mat a ^^^ gf2_matrix_times mat b := by
  induction mat with
  | nil =>
    intro a b
    simp [gf2_matrix_times]
  | cons m ms ih =>
    intro a b
    rw [gf2_times_cons, gf2_times_cons, gf2_times_cons, Nat.xor_div_two, ih]
    have h : (if (a ^^^ b) % 2 = 1 then m else 0) =
        (if a % 2 = 1 then m else 0) ^^^ (if b % 2 = 1 then m else 0) := by
      rcases Nat.mod_two_eq_zero_or_one a with ha | ha <;>
        rcases Nat.mod_two_eq_zero_or_one b with hb | hb
      · have hab : (a ^^^ b) % 2 = 0 := by rw [Nat.xor_mod_two_eq]; omega
        simp [ha, hb, hab]
      · have hab : (a ^^^ b) % 2 = 1 := by rw [Nat.xor_mod_two_eq]; omega
        simp [ha, hb, hab]
      · have hab : (a ^^^ b) % 2 = 1 := by rw [Nat.xor_mod_two_eq]; omega
        simp [ha, hb, hab]
      · have hab : (a ^^^ b) % 2 = 0 := by rw [Nat.xor_mod_two_eq]; omega
        simp [ha, hb, hab]
    rw [h]
    simp only [Nat.xor_assoc, Nat.xor_comm, xor_left_comm]

theorem gf2_times_lt (mat : List Nat) (hm : ∀ r ∈ mat, r < 2 ^ 32) :
    ∀ v : Nat, gf2_matrix_times mat v < 2 ^ 32 := by
  induction mat with
  | nil =>
    intro v
    rw [show gf2_matrix_times [] v = 0 from rfl]
    exact Nat.two_pow_pos 32
  | cons m ms ih =>
    intro v
    rw [gf2_times_cons]
    apply Nat.xor_lt_two_pow
    · by_cases h : v % 2 = 1
      · rw [if_pos h]
        exact hm m (by simp)
      · rw [if_neg h]
        exact Nat.two_pow_pos 32
    · exact ih (fun r hr => hm r (by simp [hr])) _

theorem gf2_times_map (f : Nat → Nat)
    (hf : ∀ a b, f (a ^^^ b) = f a ^^^ f b) (hf0 : f 0 = 0) (mat : List Nat) :
    ∀ v : Nat, gf2_matrix_times (mat.map f) v = f (gf2_matrix_times mat v) := by
  induction mat with
  | nil =>
    intro v
    simp [gf2_matrix_times, hf0]
  | cons m ms ih =>
    intro v
    rw [List.map_cons, gf2_times_cons, gf2_times_cons, ih,
      show (if v % 2 = 1 then f m else 0) = f (if v % 2 = 1 then m else 0) from by
        by_cases h : v % 2 = 1 <;> simp [h, hf0],
      ← hf]

theorem gf2_times_square (mat : List Nat) (v : Nat) :
    gf2_matrix_times (gf2_matrix_square mat) v
      = gf2_matrix_times mat (gf2_matrix_times mat v) := by
  unfold gf2_matrix_square
  exact gf2_times_map _ (gf2_times_xor mat) (gf2_times_zero mat) mat v

theorem gf2_times_id : ∀ (k : Nat) {y : Nat}, y < 2 ^ k →
    gf2_matrix_times ((List.range k).map (fun n => 2 ^ n)) y = y := by
  intro k
  induction k with
  | zero =>
    intro y hy
    have h0 : y = 0 := by omega
    subst h0
    simp [gf2_matrix_times]
  | succ k ih =>
    intro y hy
    have hk : y / 2 < 2 ^ k := by
      have h2 : (2 : Nat) ^ (k + 1) = 2 * 2 ^ k := by ring
      rw [h2] at hy
      omega
    rw [List.range_succ_eq_map, List.map_cons, List.map_map,
      show ((fun n => (2 : Nat) ^ n) ∘ Nat.succ) = ((fun r => 2 * r) ∘ fun n => 2 ^ n) from by
        funext n
        simp [pow_succ, Nat.mul_comm],
      ← List.map_map, gf2_times_cons,
      gf2_times_map _ (fun a b => two_mul_xor a b) (by norm_num) _ _, ih hk, pow_zero,
      show (if y % 2 = 1 then 1 else 0) = y % 2 from by
        rcases Nat.mod_two_eq_zero_or_one y with h | h <;> simp [h]]
    have h1 : y % 2 < 2 ^ 1 := by omega
    have h2 := xor_low_add_high 1 (y / 2) h1
    rw [pow_one] at h2
    rw [h2]
    omega

theorem gf2_times_odd0 {x : Nat} (hx : x < 2 ^ 32) :
    gf2_matrix_times zeros_op_odd x = crc_bit_step x := by
  unfold zeros_op_odd
  rw [gf2_times_cons, gf2_times_id 31 (show x / 2 < 2 ^ 31 from by omega), crc_bit_step_eq]
  exact Nat.xor_comm _ _

/-! ## The zeros operator represents runs of zero bits -/

theorem opRepr_square {M : List Nat} {n : Nat} (h : OpRepr M n) :
    OpRepr (gf2_matrix_square M) (2 * n) := by
  obtain ⟨hrows, hval⟩ := h
  constructor
  · intro r hr
    unfold gf2_matrix_square at hr
    obtain ⟨r', _, rfl⟩ := List.mem_map.mp hr
    exact gf2_times_lt M hrows r'
  · intro x hx
    rw [gf2_times_square, hval x hx, hval _ (crc_bit_step_iter_lt32 hx n),
      ← Function.iterate_add_apply, two_mul]

theorem opRepr_odd0 : OpRepr zeros_op_odd 1 := by
  constructor
  · intro r hr
    unfold zeros_op_odd at hr
    rcases List.mem_cons.mp hr with h | h
    · subst h
      norm_num [CRC32C_POLYNOMIAL_REV]
    · obtain ⟨i, hi, rfl⟩ := List.mem_map.mp h
      have hi31 : i < 31 := List.mem_range.mp hi
      calc (2 : Nat) ^ i ≤ 2 ^ 30 := Nat.pow_le_pow_right (by norm_num) (by omega)
        _ < 2 ^ 32 := by norm_num
  · intro x hx
    rw [Function.iterate_one]
    exact gf2_times_odd0 hx

theorem zeros_op_loop_repr : ∀ (k fuel : Nat) (M : List Nat) (n : Nat),
    2 ^ k < fuel → OpRepr M n →
    OpRepr (crc32c_zeros_op_loop fuel (2 ^ k) M) (2 ^ (k + 1) * n) := by
  intro k
  induction k using Nat.strong_induction_on with
  | _ k ih =>
    intro fuel M n hfuel hM
    cases fuel with
    | zero => exact absurd hfuel (Nat.not_lt_zero _)
    | succ fuel =>
      simp only [crc32c_zeros_op_loop]
      match k with
      | 0 =>
        rw [if_pos (by norm_num)]
        have h := opRepr_square hM
        rw [show 2 * n = 2 ^ (0 + 1) * n from by ring] at h
        exact h
      | 1 =>
        rw [if_neg (by norm_num), if_pos (by norm_num)]
        have h := opRepr_square (opRepr_square hM)
        rw [show 2 * (2 * n) = 2 ^ (1 + 1) * n from by ring] at h
        exact h
      | (i + 2) =>
        have he : (2 : Nat) ^ (i + 2) = 4 * 2 ^ i := by ring
        have hpos : (1 : Nat) ≤ 2 ^ i := Nat.one_le_two_pow
        rw [if_neg (show ¬(2 ^ (i + 2) / 2 = 0) from by omega),
          if_neg (show ¬(2 ^ (i + 2) / 2 / 2 = 0) from by omega),
          show 2 ^ (i + 2) / 2 / 2 = 2 ^ i from by omega]
        have hfi : 2 ^ i < fuel := by omega
        have h := ih i (by omega) fuel (gf2_matrix_square (gf2_matrix_square M))
          (2 * (2 * n)) hfi (opRepr_square (opRepr_square hM))
        rw [show 2 ^ (i + 1) * (2 * (2 * n)) = 2 ^ (i + 2 + 1) * n from by ring] at h
        exact h

theorem crc32c_zeros_op_repr (k : Nat) : OpRepr (crc32c_zeros_op (2 ^ k)) (8 * 2 ^ k) := by
  unfold crc32c_zeros_op
  have h1 := opRepr_square (opRepr_square opRepr_odd0)
  have h2 := zeros_op_loop_repr k (2 ^ k + 1) _ _ (by omega) h1
  rw [show 2 ^ (k + 1) * (2 * (2 * 1)) = 8 * 2 ^ k from by ring] at h2
  exact h2

/-! ## Shift-table lemmas -/

theorem byte_decomp32 (x : Nat) :
    x % 256 ^^^ x / 2 ^ 8 % 256 * 2 ^ 8 ^^^ x / 2 ^ 16 % 256 * 2 ^ 16 ^^^
      x / 2 ^ 24 * 2 ^ 24 = x := by
  have h1 : x % 256 ^^^ x / 2 ^ 8 % 256 * 2 ^ 8
      = x % 256 + x / 2 ^ 8 % 256 * 2 ^ 8 := by
    rw [Nat.mul_comm, xor_low_add_high 8 _ (show x % 256 < 2 ^ 8 from by omega),
      Nat.mul_comm]
  have h2 : x % 256 + x / 2 ^ 8 % 256 * 2 ^ 8 < 2 ^ 16 := by omega
  have h3 : (x % 256 + x / 2 ^ 8 % 256 * 2 ^ 8) ^^^ x / 2 ^ 16 % 256 * 2 ^ 16
      = x % 256 + x / 2 ^ 8 % 256 * 2 ^ 8 + x / 2 ^ 16 % 256 * 2 ^ 16 := by
    rw [Nat.mul_comm _ (2 ^ 16), xor_low_add_high 16 _ h2, Nat.mul_comm (2 ^ 16)]
  have h4 : x % 256 + x / 2 ^ 8 % 256 * 2 ^ 8 + x / 2 ^ 16 % 256 * 2 ^ 16 < 2 ^ 24 := by
    omega
  have h5 : (x % 256 + x / 2 ^ 8 % 256 * 2 ^ 8 + x / 2 ^ 16 % 256 * 2 ^ 16) ^^^
      x / 2 ^ 24 * 2 ^ 24
      = x % 256 + x / 2 ^ 8 % 256 * 2 ^ 8 + x / 2 ^ 16 % 256 * 2 ^ 16 +
        x / 2 ^ 24 * 2 ^ 24 := by
    rw [Nat.mul_comm _ (2 ^ 24), xor_low_add_high 24 _ h4, Nat.mul_comm (2 ^ 24)]
  rw [h1, h3, h5]
  omega

theorem crc32c_shift_mk (op : List Nat) {x : Nat} (hx : x < 2 ^ 32) :
    crc32c_shift (mkShiftTable op) x = gf2_matrix_times op x := by
  have hd : x / 2 ^ 24 < 256 := by omega
  unfold crc32c_shift mkShiftTable
  rw [show ∀ r0 r1 r2 r3 : List Nat, ([r0, r1, r2, r3] : List (List Nat)).getD 0 [] = r0
      from fun _ _ _ _ => rfl,
    show ∀ r0 r1 r2 r3 : List Nat, ([r0, r1, r2, r3] : List (List Nat)).getD 1 [] = r1
      from fun _ _ _ _ => rfl,
    show ∀ r0 r1 r2 r3 : List Nat, ([r0, r1, r2, r3] : List (List Nat)).getD 2 [] = r2
      from fun _ _ _ _ => rfl,
    show ∀ r0 r1 r2 r3 : List Nat, ([r0, r1, r2, r3] : List (List Nat)).getD 3 [] = r3
      from fun _ _ _ _ => rfl]
  rw [getD_range_map _ _ 256 (show x % 256 < 256 from by omega),
    getD_range_map _ _ 256 (show x / 2 ^ 8 % 256 < 256 from by omega),
    getD_range_map _ _ 256 (show x / 2 ^ 16 % 256 < 256 from by omega),
    getD_range_map _ _ 256 hd]
  rw [Nat.shiftLeft_eq, Nat.shiftLeft_eq, Nat.shiftLeft_eq,
    ← gf2_times_xor, ← gf2_times_xor, ← gf2_times_xor, byte_decomp32 x]

theorem crc32c_shift_short {x : Nat} (hx : x < 2 ^ 32) :
    crc32c_shift crc32c_short x = crc_bit_step^[2048] x := by
  have hr := crc32c_zeros_op_repr 8
  have h : crc32c_short = mkShiftTable (crc32c_zeros_op (2 ^ 8)) := by
    unfold crc32c_short crc32c_zeros SHORT_BLOCK
    norm_num
  rw [h, crc32c_shift_mk _ hx, hr.2 x hx,
    show 8 * 2 ^ 8 = 2048 from by norm_num]

theorem crc32c_shift_long {x : Nat} (hx : x < 2 ^ 32) :
    crc32c_shift crc32c_long x = crc_bit_step^[65536] x := by
  have hr := crc32c_zeros_op_repr 13
  have h : crc32c_long = mkShiftTable (crc32c_zeros_op (2 ^ 13)) := by
    unfold crc32c_long crc32c_zeros LONG_BLOCK
    norm_num
  rw [h, crc32c_shift_mk _ hx, hr.2 x hx,
    show 8 * 2 ^ 13 = 65536 from by norm_num]

/-! ## Appending zero bytes -/

theorem appendZeros_eq (n : Nat) : ∀ x : Nat, appendZeros n x = crc_bit_step^[8 * n] x := by
  induction n with
  | zero =>
    intro x
    simp [appendZeros, crcFold]
  | succ k ih =>
    intro x
    unfold appendZeros at ih ⊢
    rw [show List.replicate (k + 1) (0 : Nat) = 0 :: List.replicate k 0 from rfl,
      crcFold_cons, sw_byte_step_zero, ih, ← Function.iterate_add_apply,
      show 8 * k + 8 = 8 * (k + 1) from by ring]

/-! ## Software loop completion lemmas

Each loop preserves "completion": folding the returned remainder from the
returned accumulator equals folding the whole input from the entry
accumulator.  Bounds and membership of the remainder are carried along. -/

theorem sw_align_loop_spec : ∀ (bs : List Nat) (a crc : Nat),
    crcFold (sw_align_loop a crc bs).1 (sw_align_loop a crc bs).2 = crcFold crc bs ∧
    (crc < 2 ^ 32 → (sw_align_loop a crc bs).1 < 2 ^ 32) ∧
    ∀ b ∈ (sw_align_loop a crc bs).2, b ∈ bs := by
  intro bs
  induction bs with
  | nil =>
    intro a crc
    exact ⟨rfl, fun h => h, fun b hb => hb⟩
  | cons b bs ih =>
    intro a crc
    by_cases h : a % 8 = 0
    · rw [show sw_align_loop a crc (b :: bs) = (crc, b :: bs) from by
        simp [sw_align_loop, h]]
      exact ⟨rfl, fun hc => hc, fun x hx => hx⟩
    · rw [show sw_align_loop a crc (b :: bs)
          = sw_align_loop (a + 1) (sw_byte_step crc b) bs from by
        simp [sw_align_loop, h]]
      refine ⟨?_, ?_, ?_⟩
      · rw [(ih (a + 1) (sw_byte_step crc b)).1]
        rfl
      · intro hc
        exact (ih (a + 1) (sw_byte_step crc b)).2.1 (sw_byte_step_lt hc b)
      · intro x hx
        exact List.mem_cons_of_mem _ ((ih (a + 1) (sw_byte_step crc b)).2.2 x hx)

theorem sw_word_loopF_spec : ∀ (fuel : Nat) (bs : List Nat) (crc : Nat),
    (∀ b ∈ bs, b < 256) → crc < 2 ^ 32 →
    crcFold (sw_word_loopF fuel crc bs).1 (sw_word_loopF fuel crc bs).2 = crcFold crc bs ∧
    (sw_word_loopF fuel crc bs).1 < 2 ^ 32 ∧
    ∀ b ∈ (sw_word_loopF fuel crc bs).2, b ∈ bs := by
  intro fuel
  induction fuel with
  | zero =>
    intro bs crc _ hc
    exact ⟨rfl, hc, fun _ hb => hb⟩
  | succ fuel ih =>
    intro bs crc hb hc
    by_cases h : 8 ≤ bs.length
    · rw [show sw_word_loopF (fuel + 1) crc bs
          = sw_word_loopF fuel (crc32c_sw_inner crc (loadLE (bs.take 8))) (bs.drop 8) from by
        simp [sw_word_loopF, h]]
      have hb8 : ∀ b ∈ bs.take 8, b < 256 := fun x hx => hb x (List.mem_of_mem_take hx)
      have hbd : ∀ b ∈ bs.drop 8, b < 256 := fun x hx => hb x (List.mem_of_mem_drop hx)
      have hlen : (bs.take 8).length = 8 := by
        rw [List.length_take]
        omega
      obtain ⟨h1, h2, h3⟩ := ih (bs.drop 8) _ hbd (crc32c_sw_inner_lt _ _)
      refine ⟨?_, h2, fun x hx => List.mem_of_mem_drop (h3 x hx)⟩
      rw [h1, crc32c_sw_inner_fold hlen hb8 hc, ← crcFold_append, List.take_append_drop]
    · rw [show sw_word_loopF (fuel + 1) crc bs = (crc, bs) from by
        simp [sw_word_loopF, h]]
      exact ⟨rfl, hc, fun _ hx => hx⟩

theorem sw_block3_loop_spec : ∀ (k W c0 c1 c2 : Nat) (bs : List Nat),
    8 * k ≤ W → 2 * W + 8 * k ≤ bs.length → (∀ b ∈ bs, b < 256) →
    c0 < 2 ^ 32 → c1 < 2 ^ 32 → c2 < 2 ^ 32 →
    sw_block3_loop W k (c0, c1, c2) bs =
      (crcFold c0 (bs.take (8 * k)),
       crcFold c1 ((bs.drop W).take (8 * k)),
       crcFold c2 ((bs.drop (2 * W)).take (8 * k))) := by
  intro k
  induction k with
  | zero =>
    intro W c0 c1 c2 bs _ _ _ _ _ _
    simp [sw_block3_loop, crcFold]
  | succ k ih =>
    intro W c0 c1 c2 bs hkW hlen hb hc0 hc1 hc2
    rw [show sw_block3_loop W (k + 1) (c0, c1, c2) bs
        = sw_block3_loop W k
          (crc32c_sw_inner c0 (loadLE (bs.take 8)),
           crc32c_sw_inner c1 (loadLE ((bs.drop W).take 8)),
           crc32c_sw_inner c2 (loadLE ((bs.drop (2 * W)).take 8))) (bs.drop 8) from rfl]
    have hl0 : (bs.take 8).length = 8 := by
      rw [List.length_take]
      omega
    have hl1 : ((bs.drop W).take 8).length = 8 := by
      rw [List.length_take, List.length_drop]
      omega
    have hl2 : ((bs.drop (2 * W)).take 8).length = 8 := by
      rw [List.length_take, List.length_drop]
      omega
    have hb0 : ∀ b ∈ bs.take 8, b < 256 := fun x hx => hb x (List.mem_of_mem_take hx)
    have hb1 : ∀ b ∈ (bs.drop W).take 8, b < 256 :=
      fun x hx => hb x (List.mem_of_mem_drop (List.mem_of_mem_take hx))
    have hb2 : ∀ b ∈ (bs.drop (2 * W)).take 8, b < 256 :=
      fun x hx => hb x (List.mem_of_mem_drop (List.mem_of_mem_take hx))
    have hbd : ∀ b ∈ bs.drop 8, b < 256 := fun x hx => hb x (List.mem_of_mem_drop hx)
    rw [ih W _ _ _ (bs.drop 8) (by omega) (by rw [List.length_drop]; omega) hbd
      (crc32c_sw_inner_lt _ _) (crc32c_sw_inner_lt _ _) (crc32c_sw_inner_lt _ _)]
    simp only [Prod.mk.injEq]
    refine ⟨?_, ?_, ?_⟩
    · rw [crc32c_sw_inner_fold hl0 hb0 hc0, ← crcFold_append, ← List.take_add,
        show 8 + 8 * k = 8 * (k + 1) from by ring]
    · rw [crc32c_sw_inner_fold hl1 hb1 hc1, ← crcFold_append, List.drop_drop,
        show 8 * (k + 1) = 8 + 8 * k from by ring, List.take_add, List.drop_drop,
        Nat.add_comm 8 W]
    · rw [crc32c_sw_inner_fold hl2 hb2 hc2, ← crcFold_append, List.drop_drop,
        show 8 * (k + 1) = 8 + 8 * k from by ring, List.take_add, List.drop_drop,
        Nat.add_comm 8 (2 * W)]

/-- One 3-lane block of width `W`: running the three lanes from `(crc, 0, 0)`
over `3*W` bytes and combining them with the `W`-zeros shift table equals
folding the `3*W` bytes sequentially. -/
theorem sw_combine3 (W N : Nat) (tbl : List (List Nat))
    (htbl : ∀ y : Nat, y < 2 ^ 32 → crc32c_shift tbl y = crc_bit_step^[8 * W] y)
    {bs : List Nat} (hW : W = 8 * N) (hlen : 3 * W ≤ bs.length)
    (hb : ∀ b ∈ bs, b < 256) {crc : Nat} (hc : crc < 2 ^ 32) :
    crc32c_shift tbl
        ((crc32c_shift tbl ((sw_block3_loop W N (crc, 0, 0) bs).1 % 2 ^ 32) ^^^
          (sw_block3_loop W N (crc, 0, 0) bs).2.1) % 2 ^ 32) ^^^
        (sw_block3_loop W N (crc, 0, 0) bs).2.2
      = crcFold crc (bs.take (3 * W)) := by
  rw [sw_block3_loop_spec N W crc 0 0 bs (by omega) (by omega) hb hc
    (Nat.two_pow_pos 32) (Nat.two_pow_pos 32)]
  have hWk : 8 * N = W := hW.symm
  rw [hWk]
  have hlB1 : ((bs.drop W).take W).length = W := by
    rw [List.length_take, List.length_drop]
    omega
  have hlB2 : ((bs.drop (2 * W)).take W).length = W := by
    rw [List.length_take, List.length_drop]
    omega
  have hF0 : crcFold crc (bs.take W) < 2 ^ 32 := crcFold_lt hc _
  rw [Nat.mod_eq_of_lt hF0, htbl _ hF0]
  have hc1 : crc_bit_step^[8 * W] (crcFold crc (bs.take W)) ^^^
      crcFold 0 ((bs.drop W).take W) = crcFold (crcFold crc (bs.take W)) ((bs.drop W).take W) := by
    conv_rhs => rw [← Nat.zero_xor (crcFold crc (bs.take W)), crcFold_xor]
    rw [hlB1, Nat.xor_comm]
  rw [hc1]
  have hF1 : crcFold (crcFold crc (bs.take W)) ((bs.drop W).take W) < 2 ^ 32 :=
    crcFold_lt hF0 _
  rw [Nat.mod_eq_of_lt hF1, htbl _ hF1]
  have hc2 : crc_bit_step^[8 * W] (crcFold (crcFold crc (bs.take W)) ((bs.drop W).take W)) ^^^
      crcFold 0 ((bs.drop (2 * W)).take W)
      = crcFold (crcFold (crcFold crc (bs.take W)) ((bs.drop W).take W))
          ((bs.drop (2 * W)).take W) := by
    conv_rhs => rw [← Nat.zero_xor (crcFold (crcFold crc (bs.take W)) ((bs.drop W).take W)),
      crcFold_xor]
    rw [hlB2, Nat.xor_comm]
  rw [hc2, ← crcFold_append, ← crcFold_append]
  congr 1
  rw [show 3 * W = W + (W + W) from by ring, List.take_add, List.take_add, List.drop_drop,
    show W + W = 2 * W from by ring]

theorem sw_short_loopF_spec : ∀ (fuel : Nat) (bs : List Nat) (crc : Nat),
    bs.length ≤ fuel → (∀ b ∈ bs, b < 256) → crc < 2 ^ 32 →
    crcFold (sw_short_loopF fuel crc bs).1 (sw_short_loopF fuel crc bs).2 = crcFold crc bs ∧
    (sw_short_loopF fuel crc bs).1 < 2 ^ 32 ∧
    ∀ b ∈ (sw_short_loopF fuel crc bs).2, b ∈ bs := by
  intro fuel
  induction fuel with
  | zero =>
    intro bs crc _ _ hc
    exact ⟨rfl, hc, fun _ hx => hx⟩
  | succ fuel ih =>
    intro bs crc hf hb hc
    by_cases h : 3 * SHORT_BLOCK ≤ bs.length
    · simp only [sw_short_loopF, if_pos h]
      have hnum : 3 * SHORT_BLOCK = 768 := rfl
      have hWN : SHORT_BLOCK = 8 * (SHORT_BLOCK / 8) := rfl
      have htbl : ∀ y : Nat, y < 2 ^ 32 →
          crc32c_shift crc32c_short y = crc_bit_step^[8 * SHORT_BLOCK] y := by
        intro y hy
        rw [crc32c_shift_short hy, show 8 * SHORT_BLOCK = 2048 from rfl]
      rw [sw_combine3 SHORT_BLOCK (SHORT_BLOCK / 8) crc32c_short htbl hWN h hb hc]
      have hcf : crcFold crc (bs.take (3 * SHORT_BLOCK)) < 2 ^ 32 := crcFold_lt hc _
      have hbd : ∀ b ∈ bs.drop (3 * SHORT_BLOCK), b < 256 :=
        fun x hx => hb x (List.mem_of_mem_drop hx)
      obtain ⟨h1, h2, h3⟩ := ih (bs.drop (3 * SHORT_BLOCK)) _
        (by rw [List.length_drop]; omega) hbd hcf
      refine ⟨?_, h2, fun x hx => List.mem_of_mem_drop (h3 x hx)⟩
      rw [h1, ← crcFold_append, List.take_append_drop]
    · rw [show sw_short_loopF (fuel + 1) crc bs = (crc, bs) from by
        simp [sw_short_loopF, h]]
      exact ⟨rfl, hc, fun _ hx => hx⟩

theorem sw_long_loopF_spec : ∀ (fuel : Nat) (bs : List Nat) (crc : Nat),
    bs.length ≤ fuel → (∀ b ∈ bs, b < 256) → crc < 2 ^ 32 →
    crcFold (sw_long_loopF fuel crc bs).1 (sw_long_loopF fuel crc bs).2 = crcFold crc bs ∧
    (sw_long_loopF fuel crc bs).1 < 2 ^ 32 ∧
    ∀ b ∈ (sw_long_loopF fuel crc bs).2, b ∈ bs := by
  intro fuel
  induction fuel with
  | zero =>
    intro bs crc _ _ hc
    exact ⟨rfl, hc, fun _ hx => hx⟩
  | succ fuel ih =>
    intro bs crc hf hb hc
    by_cases h : 3 * LONG_BLOCK ≤ bs.length
    · simp only [sw_long_loopF, if_pos h]
      have hWN : LONG_BLOCK = 8 * (LONG_BLOCK / 8) := rfl
      have htbl : ∀ y : Nat, y < 2 ^ 32 →
          crc32c_shift crc32c_long y = crc_bit_step^[8 * LONG_BLOCK] y := by
        intro y hy
        rw [crc32c_shift_long hy, show 8 * LONG_BLOCK = 65536 from rfl]
      rw [sw_combine3 LONG_BLOCK (LONG_BLOCK / 8) crc32c_long htbl hWN h hb hc]
      have hcf : crcFold crc (bs.take (3 * LONG_BLOCK)) < 2 ^ 32 := crcFold_lt hc _
      have hbd : ∀ b ∈ bs.drop (3 * LONG_BLOCK), b < 256 :=
        fun x hx => hb x (List.mem_of_mem_drop hx)
      have hnum : 3 * LONG_BLOCK = 24576 := rfl
      obtain ⟨h1, h2, h3⟩ := ih (bs.drop (3 * LONG_BLOCK)) _
        (by rw [List.length_drop]; omega) hbd hcf
      refine ⟨?_, h2, fun x hx => List.mem_of_mem_drop (h3 x hx)⟩
      rw [h1, ← crcFold_append, List.take_append_drop]
    · rw [show sw_long_loopF (fuel + 1) crc bs = (crc, bs) from by
        simp [sw_long_loopF, h]]
      exact ⟨rfl, hc, fun _ hx => hx⟩

/-! ## Software engine correctness -/

theorem tail_fold_eq (p : Nat × List Nat) :
    p.2.foldl sw_byte_step p.1 = crcFold p.1 p.2 := rfl

theorem crc32c_sw_1way_spec (a : Nat) (buf : List Nat) (crc_in : Nat)
    (hb : ∀ b ∈ buf, b < 256) :
    crc32c_sw_1way a buf crc_in = crcSpec buf crc_in := by
  simp only [crc32c_sw_1way, sw_word_loop]
  rw [tail_fold_eq]
  obtain ⟨a1, a2, a3⟩ := sw_align_loop_spec buf a (compl32 crc_in)
  set A := sw_align_loop a (compl32 crc_in) buf
  obtain ⟨w1, _, _⟩ := sw_word_loopF_spec A.2.length A.2 A.1 (fun x hx => hb x (a3 x hx))
    (a2 (compl32_lt crc_in))
  rw [w1, a1]
  rfl

theorem crc32c_sw_short_block_spec (a : Nat) (buf : List Nat) (crc_in : Nat)
    (hb : ∀ b ∈ buf, b < 256) :
    crc32c_sw_short_block a buf crc_in = crcSpec buf crc_in := by
  by_cases h : buf.length < 3 * SHORT_BLOCK
  · rw [show crc32c_sw_short_block a buf crc_in = crc32c_sw_1way a buf crc_in from by
      simp [crc32c_sw_short_block, h]]
    exact crc32c_sw_1way_spec a buf crc_in hb
  · simp only [crc32c_sw_short_block, if_neg h, sw_short_loop, sw_word_loop]
    rw [tail_fold_eq]
    obtain ⟨a1, a2, a3⟩ := sw_align_loop_spec buf a (compl32 crc_in)
    set A := sw_align_loop a (compl32 crc_in) buf
    obtain ⟨s1, s2, s3⟩ := sw_short_loopF_spec A.2.length A.2 A.1 (le_refl _)
      (fun x hx => hb x (a3 x hx)) (a2 (compl32_lt crc_in))
    set S := sw_short_loopF A.2.length A.1 A.2
    obtain ⟨w1, _, _⟩ := sw_word_loopF_spec S.2.length S.2 S.1
      (fun x hx => hb x (a3 x (s3 x hx))) s2
    rw [w1, s1, a1]
    rfl

theorem crc32c_sw_spec (a : Nat) (buf : List Nat) (crc_in : Nat)
    (hb : ∀ b ∈ buf, b < 256) :
    crc32c_sw a buf crc_in = crcSpec buf crc_in := by
  by_cases h : buf.length < 3 * LONG_BLOCK
  · rw [show crc32c_sw a buf crc_in = crc32c_sw_short_block a buf crc_in from by
      simp [crc32c_sw, h]]
    exact crc32c_sw_short_block_spec a buf crc_in hb
  · simp only [crc32c_sw, if_neg h, sw_long_loop, sw_short_loop, sw_word_loop]
    rw [tail_fold_eq]
    obtain ⟨a1, a2, a3⟩ := sw_align_loop_spec buf a (compl32 crc_in)
    set A := sw_align_loop a (compl32 crc_in) buf
    obtain ⟨l1, l2, l3⟩ := sw_long_loopF_spec A.2.length A.2 A.1 (le_refl _)
      (fun x hx => hb x (a3 x hx)) (a2 (compl32_lt crc_in))
    set L := sw_long_loopF A.2.length A.1 A.2
    obtain ⟨s1, s2, s3⟩ := sw_short_loopF_spec L.2.length L.2 L.1 (le_refl _)
      (fun x hx => hb x (a3 x (l3 x hx))) l2
    set S := sw_short_loopF L.2.length L.1 L.2
    obtain ⟨w1, _, _⟩ := sw_word_loopF_spec S.2.length S.2 S.1
      (fun x hx => hb x (a3 x (l3 x (s3 x hx)))) s2
    rw [w1, s1, l1, a1]
    rfl

/-! ## The hardware engine agrees with the software engine -/

theorem hw_byte_step_eq {crc : Nat} (hc : crc < 2 ^ 32) {b : Nat} (hb : b < 256) :
    hw_byte_step crc b = sw_byte_step crc b := by
  unfold hw_byte_step mm_crc32_u8
  rw [Nat.mod_eq_of_lt hc, Nat.mod_eq_of_lt hc,
    Nat.mod_eq_of_lt (show b < 2 ^ 8 from by omega), ← sw_byte_step_eq hb]

theorem hw_fold_eq : ∀ (bs : List Nat) (crc : Nat), (∀ b ∈ bs, b < 256) → crc < 2 ^ 32 →
    bs.foldl hw_byte_step crc = bs.foldl sw_byte_step crc := by
  intro bs
  induction bs with
  | nil =>
    intro crc _ _
    rfl
  | cons b bs ih =>
    intro crc hb hc
    simp only [List.foldl_cons]
    rw [hw_byte_step_eq hc (hb b (by simp)),
      ih _ (fun x hx => hb x (by simp [hx])) (sw_byte_step_lt hc b)]

theorem hw_align_loop_eq : ∀ (bs : List Nat) (a crc : Nat), (∀ b ∈ bs, b < 256) →
    crc < 2 ^ 32 → hw_align_loop a crc bs = sw_align_loop a crc bs := by
  intro bs
  induction bs with
  | nil =>
    intro a crc _ _
    rfl
  | cons b bs ih =>
    intro a crc hb hc
    by_cases h : a % 8 = 0
    · simp [hw_align_loop, sw_align_loop, h]
    · rw [show hw_align_loop a crc (b :: bs)
          = hw_align_loop (a + 1) (hw_byte_step crc b) bs from by
        simp [hw_align_loop, h],
        show sw_align_loop a crc (b :: bs)
          = sw_align_loop (a + 1) (sw_byte_step crc b) bs from by
        simp [sw_align_loop, h],
        hw_byte_step_eq hc (hb b (by simp))]
      exact ih _ _ (fun x hx => hb x (by simp [hx])) (sw_byte_step_lt hc b)

theorem mm_crc32_u64_eq_inner {crc w : Nat} (hc : crc < 2 ^ 32) (hw : w < 2 ^ 64) :
    mm_crc32_u64 crc w = crc32c_sw_inner crc w := by
  unfold mm_crc32_u64
  rw [Nat.mod_eq_of_lt hc, Nat.mod_eq_of_lt hw, ← crc32c_sw_inner_eq hc hw]

theorem hw_word_loopF_eq : ∀ (fuel : Nat) (bs : List Nat) (crc : Nat),
    (∀ b ∈ bs, b < 256) → crc < 2 ^ 32 →
    hw_word_loopF fuel crc bs = sw_word_loopF fuel crc bs := by
  intro fuel
  induction fuel with
  | zero =>
    intro bs crc _ _
    rfl
  | succ fuel ih =>
    intro bs crc hb hc
    by_cases h : 8 ≤ bs.length
    · rw [show hw_word_loopF (fuel + 1) crc bs
          = hw_word_loopF fuel (mm_crc32_u64 crc (loadLE (bs.take 8))) (bs.drop 8) from by
        simp [hw_word_loopF, h],
        show sw_word_loopF (fuel + 1) crc bs
          = sw_word_loopF fuel (crc32c_sw_inner crc (loadLE (bs.take 8))) (bs.drop 8) from by
        simp [sw_word_loopF, h]]
      have hwlt : loadLE (bs.take 8) < 2 ^ 64 := by
        have h1 := loadLE_lt (bs.take 8) (fun x hx => hb x (List.mem_of_mem_take hx))
        have h2 : (bs.take 8).length = 8 := by
          rw [List.length_take]
          omega
        rw [h2, show 8 * 8 = 64 from by norm_num] at h1
        exact h1
      rw [mm_crc32_u64_eq_inner hc hwlt]
      exact ih _ _ (fun x hx => hb x (List.mem_of_mem_drop hx)) (crc32c_sw_inner_lt _ _)
    · simp [hw_word_loopF, sw_word_loopF, h]

theorem hw_block3_loop_eq : ∀ (k W c0 c1 c2 : Nat) (bs : List Nat),
    (∀ b ∈ bs, b < 256) → c0 < 2 ^ 32 → c1 < 2 ^ 32 → c2 < 2 ^ 32 →
    hw_block3_loop W k (c0, c1, c2) bs = sw_block3_loop W k (c0, c1, c2) bs := by
  intro k
  induction k with
  | zero =>
    intro W c0 c1 c2 bs _ _ _ _
    rfl
  | succ k ih =>
    intro W c0 c1 c2 bs hb hc0 hc1 hc2
    rw [show hw_block3_loop W (k + 1) (c0, c1, c2) bs = hw_block3_loop W k
        (mm_crc32_u64 c0 (loadLE (bs.take 8)),
         mm_crc32_u64 c1 (loadLE ((bs.drop W).take 8)),
         mm_crc32_u64 c2 (loadLE ((bs.drop (2 * W)).take 8))) (bs.drop 8) from rfl,
      show sw_block3_loop W (k + 1) (c0, c1, c2) bs = sw_block3_loop W k
        (crc32c_sw_inner c0 (loadLE (bs.take 8)),
         crc32c_sw_inner c1 (loadLE ((bs.drop W).take 8)),
         crc32c_sw_inner c2 (loadLE ((bs.drop (2 * W)).take 8))) (bs.drop 8) from rfl]
    have hload : ∀ l : List Nat, (∀ b ∈ l, b < 256) → l.length ≤ 8 → loadLE l < 2 ^ 64 := by
      intro l hl hlen
      calc loadLE l < 2 ^ (8 * l.length) := loadLE_lt l hl
        _ ≤ 2 ^ 64 := Nat.pow_le_pow_right (by norm_num) (by omega)
    rw [mm_crc32_u64_eq_inner hc0
        (hload _ (fun x hx => hb x (List.mem_of_mem_take hx))
          (by rw [List.length_take]; omega)),
      mm_crc32_u64_eq_inner hc1
        (hload _ (fun x hx => hb x (List.mem_of_mem_drop (List.mem_of_mem_take hx)))
          (by rw [List.length_take]; omega)),
      mm_crc32_u64_eq_inner hc2
        (hload _ (fun x hx => hb x (List.mem_of_mem_drop (List.mem_of_mem_take hx)))
          (by rw [List.length_take]; omega))]
    exact ih W _ _ _ (bs.drop 8) (fun x hx => hb x (List.mem_of_mem_drop hx))
      (crc32c_sw_inner_lt _ _) (crc32c_sw_inner_lt _ _) (crc32c_sw_inner_lt _ _)

theorem sw_block3_loop_lt : ∀ (k W c0 c1 c2 : Nat) (bs : List Nat),
    c0 < 2 ^ 32 → c1 < 2 ^ 32 → c2 < 2 ^ 32 →
    (sw_block3_loop W k (c0, c1, c2) bs).1 < 2 ^ 32 ∧
    (sw_block3_loop W k (c0, c1, c2) bs).2.1 < 2 ^ 32 ∧
    (sw_block3_loop W k (c0, c1, c2) bs).2.2 < 2 ^ 32 := by
  intro k
  induction k with
  | zero =>
    intro W c0 c1 c2 bs h0 h1 h2
    exact ⟨h0, h1, h2⟩
  | succ k ih =>
    intro W c0 c1 c2 bs _ _ _
    rw [show sw_block3_loop W (k + 1) (c0, c1, c2) bs = sw_block3_loop W k
        (crc32c_sw_inner c0 (loadLE (bs.take 8)),
         crc32c_sw_inner c1 (loadLE ((bs.drop W).take 8)),
         crc32c_sw_inner c2 (loadLE ((bs.drop (2 * W)).take 8))) (bs.drop 8) from rfl]
    exact ih W _ _ _ (bs.drop 8) (crc32c_sw_inner_lt _ _) (crc32c_sw_inner_lt _ _)
      (crc32c_sw_inner_lt _ _)

theorem crc32c_shift_short_lt {y : Nat} (hy : y < 2 ^ 32) :
    crc32c_shift crc32c_short y < 2 ^ 32 := by
  rw [crc32c_shift_short hy]
  exact crc_bit_step_iter_lt32 hy _

theorem crc32c_shift_long_lt {y : Nat} (hy : y < 2 ^ 32) :
    crc32c_shift crc32c_long y < 2 ^ 32 := by
  rw [crc32c_shift_long hy]
  exact crc_bit_step_iter_lt32 hy _

theorem hw_short_loopF_eq : ∀ (fuel : Nat) (bs : List Nat) (crc : Nat),
    (∀ b ∈ bs, b < 256) → crc < 2 ^ 32 →
    hw_short_loopF fuel crc bs = sw_short_loopF fuel crc bs := by
  intro fuel
  induction fuel with
  | zero =>
    intro bs crc _ _
    rfl
  | succ fuel ih =>
    intro bs crc hb hc
    by_cases h : 3 * SHORT_BLOCK ≤ bs.length
    · simp only [hw_short_loopF, sw_short_loopF, if_pos h]
      rw [hw_block3_loop_eq _ _ _ _ _ _ hb hc (Nat.two_pow_pos 32) (Nat.two_pow_pos 32)]
      obtain ⟨_, _, l2⟩ := sw_block3_loop_lt (SHORT_BLOCK / 8) SHORT_BLOCK crc 0 0 bs hc
        (Nat.two_pow_pos 32) (Nat.two_pow_pos 32)
      exact ih _ _ (fun x hx => hb x (List.mem_of_mem_drop hx))
        (Nat.xor_lt_two_pow (crc32c_shift_short_lt (Nat.mod_lt _ (Nat.two_pow_pos 32))) l2)
    · simp [hw_short_loopF, sw_short_loopF, h]

theorem hw_long_loopF_eq : ∀ (fuel : Nat) (bs : List Nat) (crc : Nat),
    (∀ b ∈ bs, b < 256) → crc < 2 ^ 32 →
    hw_long_loopF fuel crc bs = sw_long_loopF fuel crc bs := by
  intro fuel
  induction fuel with
  | zero =>
    intro bs crc _ _
    rfl
  | succ fuel ih =>
    intro bs crc hb hc
    by_cases h : 3 * LONG_BLOCK ≤ bs.length
    · simp only [hw_long_loopF, sw_long_loopF, if_pos h]
      rw [hw_block3_loop_eq _ _ _ _ _ _ hb hc (Nat.two_pow_pos 32) (Nat.two_pow_pos 32)]
      obtain ⟨_, _, l2⟩ := sw_block3_loop_lt (LONG_BLOCK / 8) LONG_BLOCK crc 0 0 bs hc
        (Nat.two_pow_pos 32) (Nat.two_pow_pos 32)
      exact ih _ _ (fun x hx => hb x (List.mem_of_mem_drop hx))
        (Nat.xor_lt_two_pow (crc32c_shift_long_lt (Nat.mod_lt _ (Nat.two_pow_pos 32))) l2)
    · simp [hw_long_loopF, sw_long_loopF, h]

theorem crc32c_hw_1way_eq (a : Nat) (buf : List Nat) (crc_in : Nat)
    (hb : ∀ b ∈ buf, b < 256) :
    crc32c_hw_1way a buf crc_in = crc32c_sw_1way a buf crc_in := by
  simp only [crc32c_hw_1way, crc32c_sw_1way, hw_word_loop, sw_word_loop]
  rw [hw_align_loop_eq buf a (compl32 crc_in) hb (compl32_lt crc_in)]
  obtain ⟨_, a2, a3⟩ := sw_align_loop_spec buf a (compl32 crc_in)
  set A := sw_align_loop a (compl32 crc_in) buf
  rw [hw_word_loopF_eq A.2.length A.2 A.1 (fun x hx => hb x (a3 x hx))
    (a2 (compl32_lt crc_in))]
  obtain ⟨_, w2, w3⟩ := sw_word_loopF_spec A.2.length A.2 A.1 (fun x hx => hb x (a3 x hx))
    (a2 (compl32_lt crc_in))
  set WL := sw_word_loopF A.2.length A.1 A.2
  rw [hw_fold_eq WL.2 WL.1 (fun x hx => hb x (a3 x (w3 x hx))) w2]

theorem crc32c_hw_short_block_eq (a : Nat) (buf : List Nat) (crc_in : Nat)
    (hb : ∀ b ∈ buf, b < 256) :
    crc32c_hw_short_block a buf crc_in = crc32c_sw_short_block a buf crc_in := by
  by_cases h : buf.length < 3 * SHORT_BLOCK
  · rw [show crc32c_hw_short_block a buf crc_in = crc32c_hw_1way a buf crc_in from by
      simp [crc32c_hw_short_block, h],
      show crc32c_sw_short_block a buf crc_in = crc32c_sw_1way a buf crc_in from by
      simp [crc32c_sw_short_block, h]]
    exact crc32c_hw_1way_eq a buf crc_in hb
  · simp only [crc32c_hw_short_block, crc32c_sw_short_block, if_neg h,
      hw_short_loop, sw_short_loop, hw_word_loop, sw_word_loop]
    rw [hw_align_loop_eq buf a (compl32 crc_in) hb (compl32_lt crc_in)]
    obtain ⟨_, a2, a3⟩ := sw_align_loop_spec buf a (compl32 crc_in)
    set A := sw_align_loop a (compl32 crc_in) buf
    rw [hw_short_loopF_eq A.2.length A.2 A.1 (fun x hx => hb x (a3 x hx))
      (a2 (compl32_lt crc_in))]
    obtain ⟨_, s2, s3⟩ := sw_short_loopF_spec A.2.length A.2 A.1 (le_refl _)
      (fun x hx => hb x (a3 x hx)) (a2 (compl32_lt crc_in))
    set S := sw_short_loopF A.2.length A.1 A.2
    rw [hw_word_loopF_eq S.2.length S.2 S.1 (fun x hx => hb x (a3 x (s3 x hx))) s2]
    obtain ⟨_, w2, w3⟩ := sw_word_loopF_spec S.2.length S.2 S.1
      (fun x hx => hb x (a3 x (s3 x hx))) s2
    set WL := sw_word_loopF S.2.length S.1 S.2
    rw [hw_fold_eq WL.2 WL.1 (fun x hx => hb x (a3 x (s3 x (w3 x hx)))) w2]

theorem crc32c_hw_eq (a : Nat) (buf : List Nat) (crc_in : Nat)
    (hb : ∀ b ∈ buf, b < 256) :
    crc32c_hw a buf crc_in = crc32c_sw a buf crc_in := by
  by_cases h : buf.length < 3 * LONG_BLOCK
  · rw [show crc32c_hw a buf crc_in = crc32c_hw_short_block a buf crc_in from by
      simp [crc32c_hw, h],
      show crc32c_sw a buf crc_in = crc32c_sw_short_block a buf crc_in from by
      simp [crc32c_sw, h]]
    exact crc32c_hw_short_block_eq a buf crc_in hb
  · simp only [crc32c_hw, crc32c_sw, if_neg h, hw_long_loop, sw_long_loop,
      hw_short_loop, sw_short_loop, hw_word_loop, sw_word_loop]
    rw [hw_align_loop_eq buf a (compl32 crc_in) hb (compl32_lt crc_in)]
    obtain ⟨_, a2, a3⟩ := sw_align_loop_spec buf a (compl32 crc_in)
    set A := sw_align_loop a (compl32 crc_in) buf
    rw [hw_long_loopF_eq A.2.length A.2 A.1 (fun x hx => hb x (a3 x hx))
      (a2 (compl32_lt crc_in))]
    obtain ⟨_, l2, l3⟩ := sw_long_loopF_spec A.2.length A.2 A.1 (le_refl _)
      (fun x hx => hb x (a3 x hx)) (a2 (compl32_lt crc_in))
    set L := sw_long_loopF A.2.length A.1 A.2
    rw [hw_short_loopF_eq L.2.length L.2 L.1 (fun x hx => hb x (a3 x (l3 x hx))) l2]
    obtain ⟨_, s2, s3⟩ := sw_short_loopF_spec L.2.length L.2 L.1 (le_refl _)
      (fun x hx => hb x (a3 x (l3 x hx))) l2
    set S := sw_short_loopF L.2.length L.1 L.2
    rw [hw_word_loopF_eq S.2.length S.2 S.1
      (fun x hx => hb x (a3 x (l3 x (s3 x hx)))) s2]
    obtain ⟨_, w2, w3⟩ := sw_word_loopF_spec S.2.length S.2 S.1
      (fun x hx => hb x (a3 x (l3 x (s3 x hx)))) s2
    set WL := sw_word_loopF S.2.length S.1 S.2
    rw [hw_fold_eq WL.2 WL.1 (fun x hx => hb x (a3 x (l3 x (s3 x (w3 x hx))))) w2]

theorem crc32c_hw_spec (a : Nat) (buf : List Nat) (crc_in : Nat)
    (hb : ∀ b ∈ buf, b < 256) :
    crc32c_hw a buf crc_in = crcSpec buf crc_in := by
  rw [crc32c_hw_eq a buf crc_in hb]
  exact crc32c_sw_spec a buf crc_in hb

theorem crc32c_spec (sse42 : Bool) (a : Nat) (buf : List Nat) (crc_in : Nat)
    (hb : ∀ b ∈ buf, b < 256) :
    crc32c sse42 a buf crc_in = crcSpec buf crc_in := by
  unfold crc32c
  cases sse42 with
  | false =>
    rw [if_neg (by simp)]
    exact crc32c_sw_spec a buf crc_in hb
  | true =>
    rw [if_pos rfl]
    exact crc32c_hw_spec a buf crc_in hb

/-! ## Properties of the reference checksum -/

theorem crcSpec_nil {crc : Nat} (hc : crc < 2 ^ 32) : crcSpec [] crc = crc := by
  unfold crcSpec compl32
  rw [crcFold_nil, Nat.xor_assoc, Nat.xor_self, Nat.xor_zero, Nat.mod_eq_of_lt
    (Nat.mod_lt _ (Nat.two_pow_pos 32)), Nat.mod_eq_of_lt hc]

theorem compl32_unfold (x : Nat) : compl32 x = x % 2 ^ 32 ^^^ 0xFFFFFFFF := rfl

theorem compl32_invol {z : Nat} (hzlt : z < 2 ^ 32) :
    compl32 ((z ^^^ 0xFFFFFFFF) % 2 ^ 32) = z := by
  have h1 : z ^^^ 0xFFFFFFFF < 2 ^ 32 := Nat.xor_lt_two_pow hzlt (by norm_num)
  rw [compl32_unfold, Nat.mod_eq_of_lt h1, Nat.mod_eq_of_lt h1, Nat.xor_assoc,
    Nat.xor_self, Nat.xor_zero]

theorem crcSpec_append (buf1 buf2 : List Nat) (seed : Nat) :
    crcSpec buf2 (crcSpec buf1 seed) = crcSpec (buf1 ++ buf2) seed := by
  have hz : crcFold (compl32 seed) buf1 < 2 ^ 32 := crcFold_lt (compl32_lt seed) buf1
  have hcompl : compl32 (crcSpec buf1 seed) = crcFold (compl32 seed) buf1 := by
    rw [show crcSpec buf1 seed
        = (crcFold (compl32 seed) buf1 ^^^ 0xFFFFFFFF) % 2 ^ 32 from rfl]
    exact compl32_invol hz
  rw [show crcSpec buf2 (crcSpec buf1 seed)
      = (crcFold (compl32 (crcSpec buf1 seed)) buf2 ^^^ 0xFFFFFFFF) % 2 ^ 32 from rfl,
    hcompl, ← crcFold_append]
  rfl

/-! ## Claims -/

/-- C1: with seed 0, the public `crc32c` operation returns `0x8A9136AA` for 32
bytes of `0x00`, `0x62A8AB43` for 32 bytes of `0xFF`, `0x46DD794E` for the 32
bytes `0x00,0x01,...,0x1F`, and `0x113FDB5C` for the 32 bytes
`0x1F,0x1E,...,0x00`, whichever engine the dispatcher selected and at every
buffer alignment. -/
theorem claim_C1 (sse42 : Bool) (a : Nat) :
    crc32c sse42 a (List.replicate 32 0) 0 = 0x8A9136AA ∧
    crc32c sse42 a (List.replicate 32 0xFF) 0 = 0x62A8AB43 ∧
    crc32c sse42 a (List.range 32) 0 = 0x46DD794E ∧
    crc32c sse42 a (List.range 32).reverse 0 = 0x113FDB5C := by
  refine ⟨?_, ?_, ?_, ?_⟩
  · rw [crc32c_spec sse42 a (List.replicate 32 0) 0 (by decide)]
    decide
  · rw [crc32c_spec sse42 a (List.replicate 32 0xFF) 0 (by decide)]
    decide
  · rw [crc32c_spec sse42 a (List.range 32) 0 (by decide)]
    decide
  · rw [crc32c_spec sse42 a (List.range 32).reverse 0 (by decide)]
    decide

/-- C2: for every initial accumulator seed (any `uint32`, including 0 and
0xFFFFFFFF) and every buffer, `crc32c` of its zero-length prefix returns the
seed unchanged, on either engine and at any alignment. -/
theorem claim_C2 (sse42 : Bool) (a : Nat) (buf : List Nat) (seed : Nat)
    (h : seed < 2 ^ 32) :
    crc32c sse42 a (buf.take 0) seed = seed := by
  rw [List.take_zero, crc32c_spec sse42 a [] seed (by simp)]
  exact crcSpec_nil h

theorem claim_C2_witness :
    (0xFFFFFFFF : Nat) < 2 ^ 32 ∧
    crc32c true 3 (List.take 0 [17]) 0xFFFFFFFF = 0xFFFFFFFF :=
  ⟨by norm_num, claim_C2 true 3 [17] 0xFFFFFFFF (by norm_num)⟩

/-- C3: streaming composability: chaining `crc32c` over `buf1` then `buf2`
equals `crc32c` over their concatenation, for every seed, every pair of byte
buffers (hence all lengths, including the 3-lane strategy boundaries), every
alignment of each buffer, and either engine. -/
theorem claim_C3 (sse42 : Bool) (a1 a2 a3 : Nat) (buf1 buf2 : List Nat) (seed : Nat)
    (h1 : ∀ b ∈ buf1, b < 256) (h2 : ∀ b ∈ buf2, b < 256) :
    crc32c sse42 a2 buf2 (crc32c sse42 a1 buf1 seed) =
      crc32c sse42 a3 (buf1 ++ buf2) seed := by
  rw [crc32c_spec sse42 a1 buf1 seed h1, crc32c_spec sse42 a2 buf2 _ h2,
    crc32c_spec sse42 a3 (buf1 ++ buf2) seed (by
      intro b hb
      rcases List.mem_append.mp hb with h | h
      · exact h1 b h
      · exact h2 b h)]
  exact crcSpec_append buf1 buf2 seed

theorem claim_C3_witness :
    (∀ b ∈ ([0, 255] : List Nat), b < 256) ∧ (∀ b ∈ ([1, 2, 3] : List Nat), b < 256) ∧
    crc32c false 5 [1, 2, 3] (crc32c false 2 [0, 255] 7) =
      crc32c false 0 ([0, 255] ++ [1, 2, 3]) 7 :=
  ⟨by decide, by decide, claim_C3 false 2 5 0 [0, 255] [1, 2, 3] 7 (by decide) (by decide)⟩

/-- C4: the Software Engine and the Hardware Engine return identical results
for every buffer (hence every length and byte content), every alignment
residue, and every seed. -/
theorem claim_C4 (a : Nat) (buf : List Nat) (seed : Nat) (hb : ∀ b ∈ buf, b < 256) :
    crc32c_sw a buf seed = crc32c_hw a buf seed :=
  (crc32c_hw_eq a buf seed hb).symm

theorem claim_C4_witness :
    (∀ b ∈ ([10, 20, 30] : List Nat), b < 256) ∧
    crc32c_sw 6 [10, 20, 30] 0 = crc32c_hw 6 [10, 20, 30] 0 :=
  ⟨by decide, claim_C4 6 [10, 20, 30] 0 (by decide)⟩

/-- C5: the 3-lane strategies (`crc32c_sw` with long blocks and
`crc32c_sw_short_block` with short blocks, combining lanes through the shift
tables) return the same result as the single-lane reference `crc32c_sw_1way`
on every buffer, alignment, and seed. -/
theorem claim_C5 (a : Nat) (buf : List Nat) (seed : Nat) (hb : ∀ b ∈ buf, b < 256) :
    crc32c_sw a buf seed = crc32c_sw_1way a buf seed ∧
    crc32c_sw_short_block a buf seed = crc32c_sw_1way a buf seed := by
  constructor
  · rw [crc32c_sw_spec a buf seed hb, crc32c_sw_1way_spec a buf seed hb]
  · rw [crc32c_sw_short_block_spec a buf seed hb, crc32c_sw_1way_spec a buf seed hb]

theorem claim_C5_witness :
    (∀ b ∈ ([7, 8, 9] : List Nat), b < 256) ∧
    (crc32c_sw 1 [7, 8, 9] 42 = crc32c_sw_1way 1 [7, 8, 9] 42 ∧
     crc32c_sw_short_block 1 [7, 8, 9] 42 = crc32c_sw_1way 1 [7, 8, 9] 42) :=
  ⟨by decide, claim_C5 1 [7, 8, 9] 42 (by decide)⟩

/-- C6 as stated is false: at length 3 the matrix built by `crc32c_zeros_op`
does not map the register state 1 to its state after appending three zero
bytes. -/
theorem claim_C6_counterexample :
    gf2_matrix_times (crc32c_zeros_op 3) 1 ≠ appendZeros 3 1 := by decide

/-- C6 amended: for every length that is a power of two — in particular
`LONG_BLOCK = 8192` and `SHORT_BLOCK = 256` — `crc32c_zeros_op` returns the
32×32 GF(2) matrix that maps a CRC register state to its state after
appending that many zero bytes. -/
theorem claim_C6 (k x : Nat) (hx : x < 2 ^ 32) :
    gf2_matrix_times (crc32c_zeros_op (2 ^ k)) x = appendZeros (2 ^ k) x ∧
    gf2_matrix_times (crc32c_zeros_op LONG_BLOCK) x = appendZeros LONG_BLOCK x ∧
    gf2_matrix_times (crc32c_zeros_op SHORT_BLOCK) x = appendZeros SHORT_BLOCK x := by
  refine ⟨?_, ?_, ?_⟩
  · rw [(crc32c_zeros_op_repr k).2 x hx, appendZeros_eq]
  · rw [show LONG_BLOCK = 2 ^ 13 from rfl, (crc32c_zeros_op_repr 13).2 x hx, appendZeros_eq]
  · rw [show SHORT_BLOCK = 2 ^ 8 from rfl, (crc32c_zeros_op_repr 8).2 x hx, appendZeros_eq]

theorem claim_C6_witness :
    (1 : Nat) < 2 ^ 32 ∧
    (gf2_matrix_times (crc32c_zeros_op (2 ^ 8)) 1 = appendZeros (2 ^ 8) 1 ∧
     gf2_matrix_times (crc32c_zeros_op LONG_BLOCK) 1 = appendZeros LONG_BLOCK 1 ∧
     gf2_matrix_times (crc32c_zeros_op SHORT_BLOCK) 1 = appendZeros SHORT_BLOCK 1) :=
  ⟨by norm_num, claim_C6 8 1 (by norm_num)⟩

/-- C7: `crc32c_zeros_op` at length 0 produces exactly the matrix it produces
at length 1, the single-zero-byte operator. -/
theorem claim_C7 : crc32c_zeros_op 0 = crc32c_zeros_op 1 := by decide

/-- C8: for every operator matrix and every 32-bit value, applying the 4×256
shift table built by `crc32c_zeros` through the four-lookup formula
`crc32c_shift` equals the direct matrix-vector product. -/
theorem claim_C8 (op : List Nat) (x : Nat) (hx : x < 2 ^ 32) :
    crc32c_shift (mkShiftTable op) x = gf2_matrix_times op x :=
  crc32c_shift_mk op hx

theorem claim_C8_witness :
    (0xDEADBEEF : Nat) < 2 ^ 32 ∧
    crc32c_shift (mkShiftTable (List.range 32)) 0xDEADBEEF
      = gf2_matrix_times (List.range 32) 0xDEADBEEF :=
  ⟨by norm_num, claim_C8 (List.range 32) 0xDEADBEEF (by norm_num)⟩

/-- C9: alignment invariance: two runs of the public `crc32c` over the same
logical bytes at buffer start addresses with different residues modulo 8
return the same numeric result (either engine, any seed). -/
theorem claim_C9 (sse42 : Bool) (a1 a2 : Nat) (buf : List Nat) (seed : Nat)
    (hb : ∀ b ∈ buf, b < 256) :
    crc32c sse42 a1 buf seed = crc32c sse42 a2 buf seed := by
  rw [crc32c_spec sse42 a1 buf seed hb, crc32c_spec sse42 a2 buf seed hb]

theorem claim_C9_witness :
    (∀ b ∈ ([11, 22, 33, 44] : List Nat), b < 256) ∧
    crc32c true 0 [11, 22, 33, 44] 5 = crc32c true 3 [11, 22, 33, 44] 5 :=
  ⟨by decide, claim_C9 true 0 3 [11, 22, 33, 44] 5 (by decide)⟩

/-- C10: for every 64-bit accumulator whose upper 32 bits are zero and every
8-byte group, the word fold `crc32c_sw_inner` returns the same value as eight
single-byte table steps applied in memory order, and the result again has its
upper 32 bits zero. -/
theorem claim_C10 (bs : List Nat) (crc : Nat) (hlen : bs.length = 8)
    (hb : ∀ b ∈ bs, b < 256) (hc : crc < 2 ^ 32) :
    crc32c_sw_inner crc (loadLE bs) = bs.foldl sw_byte_step crc ∧
    crc32c_sw_inner crc (loadLE bs) < 2 ^ 32 :=
  ⟨crc32c_sw_inner_fold hlen hb hc, crc32c_sw_inner_lt _ _⟩

theorem claim_C10_witness :
    ([1, 2, 3, 4, 5, 6, 7, 8] : List Nat).length = 8 ∧
    (∀ b ∈ ([1, 2, 3, 4, 5, 6, 7, 8] : List Nat), b < 256) ∧ (0 : Nat) < 2 ^ 32 ∧
    (crc32c_sw_inner 0 (loadLE [1, 2, 3, 4, 5, 6, 7, 8])
        = List.foldl sw_byte_step 0 [1, 2, 3, 4, 5, 6, 7, 8] ∧
     crc32c_sw_inner 0 (loadLE [1, 2, 3, 4, 5, 6, 7, 8]) < 2 ^ 32) :=
  ⟨rfl, by decide, by norm_num,
    claim_C10 [1, 2, 3, 4, 5, 6, 7, 8] 0 rfl (by decide) (by norm_num)⟩

end Crc32c
